import Mathlib

/-!
# Verification development for the `rbtree` red-black tree engine

A shallow embedding of `src/rbtree.c` / `src/rbtree.h`.

The C code works on an intrusive pointer structure: each `rb_node_t`
holds two child pointers, and the red/black color is packed into the
least significant bit of the left child pointer.  The embedding models:

* a pointer as a `Nat` (a node identity); the C `NULL` pointer is
  `Option.none`, a non-null pointer `p` is `Option.some p`;
* the memory as a total function `Heap := Nat → Node` where `Node`
  carries the two (masked) child pointers and the color tag bit
  (`black = true` is `RB_BLACK`, matching `RB_COLOR_MASK`); the
  accessors `get_child` / `set_child` / `get_color` / `set_color`
  mirror the C accessors, which always mask the tag bit in and out, so
  keeping the bit as a separate field is a faithful rendering of the
  packed representation;
* the comparator `rb_cmp_t` as a total boolean function on node ids
  (the C comparator receives non-null node pointers);
* `_RB_MAX_TREE_DEPTH` as an explicit parameter `maxd` everywhere the
  C code consults it: the macro is derived from the platform pointer
  width (121 for 8-byte pointers), and the safety-check bounds in the
  source compare stack sizes against it.  The default build
  (`_RB_ENABLE_SAFETY_CHECKS = 1`, `_RB_DISABLE_ALLOCA = 0`) is the
  configuration embedded here.

Loops whose C termination argument is the bounded stack size are
translated with an explicit fuel that mirrors that bound; loops the C
source runs without any bound (`rb_contains`, `__rb_get_minmax`,
recursion in the validator and the batch builder) receive a fuel
parameter as a modeling device, and every theorem that touches them
supplies enough fuel for the trees involved.  Paths on which the C
code dereferences `NULL` or reads outside the live stack are modeled
as `Option.none` (the operation faults instead of returning a state).
-/

namespace RBC

/-- A node identity ("pointer value"); the C `NULL` is `Option.none`. -/
abbrev Ptr := Nat

/-- `rb_side_t`: `RB_LEFT = 0`, `RB_RIGHT = 1`. -/
inductive Side where
  | L : Side
  | R : Side
deriving DecidableEq, Repr

/-- The C fixups flip sides with `(side == RB_LEFT) ? RB_RIGHT : RB_LEFT`. -/
def Side.flip : Side → Side
  | .L => .R
  | .R => .L

/-- One `rb_node_t`: two child pointers with the color tag stored in the
LSB of the left slot.  `black = true` is `RB_BLACK` (`RB_COLOR_MASK` set). -/
structure Node where
  left : Option Ptr
  right : Option Ptr
  black : Bool
deriving DecidableEq, Repr

/-- The node memory.  A total function: the engine only ever follows
pointers it was handed or stored, so unreachable addresses are inert. -/
abbrev Heap := Ptr → Node

/-- `rb_t`: root pointer plus comparator (`cmp_func`). -/
structure Tree where
  root : Option Ptr
  cmp : Ptr → Ptr → Bool

/-- `get_child`: reads a child slot; the left slot is masked with
`RB_PTR_MASK`, which the split representation renders directly. -/
def get_child (h : Heap) (n : Ptr) : Side → Option Ptr
  | .L => (h n).left
  | .R => (h n).right

/-- `set_child`: writes a child slot, preserving the tag bit of the left
slot (`new | (old & RB_COLOR_MASK)`). -/
def set_child (h : Heap) (n : Ptr) (s : Side) (v : Option Ptr) : Heap :=
  fun p =>
    if p = n then
      match s with
      | .L => { h p with left := v }
      | .R => { h p with right := v }
    else h p

/-- `is_black` (`get_color(n) == RB_BLACK`). -/
def is_black (h : Heap) (n : Ptr) : Bool := (h n).black

/-- `is_red` (`get_color(n) == RB_RED`). -/
def is_red (h : Heap) (n : Ptr) : Bool := !(h n).black

/-- `set_color`: overwrite the tag bit only. -/
def set_color (h : Heap) (n : Ptr) (black : Bool) : Heap :=
  fun p => if p = n then { h p with black := black } else h p

/-- `set_black`. -/
def set_black (h : Heap) (n : Ptr) : Heap := set_color h n true

/-- `set_red`. -/
def set_red (h : Heap) (n : Ptr) : Heap := set_color h n false

/-- `get_side`: `(get_child(parent, RB_RIGHT) == child) ? RB_RIGHT : RB_LEFT`. -/
def get_side (h : Heap) (parent child : Ptr) : Side :=
  if (h parent).right = some child then .R else .L

/-- `_RB_MAX_TREE_DEPTH` for 8-byte pointers:
`2 * (8 * sizeof(int *) - 3 - 1) + 1 = 121`.  The development keeps the
depth bound as an explicit parameter `maxd`; this is its value on the
64-bit platform the source documents. -/
def MAX_TREE_DEPTH_64 : Nat := 2 * (64 - 3 - 1) + 1

/-- Loop body of `find_and_stack`.  The stack is a list with the top at
the head (`stack[sz-1]` is the head, `stack[0]` the last element).  The
fuel counts the pushes still allowed by the `_RB_ENABLE_SAFETY_CHECKS`
bound `sz >= _RB_MAX_TREE_DEPTH - 2`, which is checked after the null
child test and before the push, exactly as in the source. -/
def fas_go (h : Heap) (cmp : Ptr → Ptr → Bool) (node : Ptr) :
    List Ptr → Nat → List Ptr
  | [], _ => []
  | top :: rest, fuel =>
    if top = node then top :: rest
    else
      match get_child h top (if cmp node top then .L else .R) with
      | none => top :: rest
      | some ch =>
        match fuel with
        | 0 => top :: rest
        | fuel + 1 => fas_go h cmp node (ch :: top :: rest) fuel

/-- `find_and_stack`: walk from the (non-null) root towards `node`,
recording the path.  Initially `stack[0] = tree->root` and `sz = 1`;
pushes happen while `sz < maxd - 2`, so at most `maxd - 3` pushes. -/
def find_and_stack (maxd : Nat) (h : Heap) (cmp : Ptr → Ptr → Bool)
    (node root : Ptr) : List Ptr :=
  fas_go h cmp node [root] (maxd - 3)

/-- `rotate`: rotate the top two stack frames.  The list form of the
stack has the top at the head, so the frames are `child :: parent ::
rest`, the grandparent (if `stacksz >= 3`) is the head of `rest`, and
the updated stack swaps the two top entries.  A stack of fewer than two
entries is never rotated by the source (it would read outside the live
stack); the model returns it unchanged. -/
def rotate (h : Heap) : List Ptr → Heap × List Ptr
  | child :: parent :: rest =>
    let side := get_side h parent child
    let a := get_child h child side
    let b := get_child h child side.flip
    let h1 :=
      match rest with
      | grandparent :: _ =>
        set_child h grandparent (get_side h grandparent parent) (some child)
      | [] => h
    let h2 := set_child h1 child side a
    let h3 := set_child h2 child side.flip (some parent)
    let h4 := set_child h3 parent side b
    (h4, parent :: child :: rest)
  | stk => (h, stk)

end RBC

namespace RBC

/-- Case 2 of `fix_extra_red` (black aunt): align the node with the
grandparent side if needed, rotate at the grandparent (`rotate(stack,
stacksz - 1)`, i.e. on the tail of the stack), then recolor
`stack[stacksz-3]` black and `stack[stacksz-2]` red.  Returns the heap
and the final `stack[0]`. -/
def fix_case2 (h : Heap) (node parent : Ptr) (rest : List Ptr) (side : Side) :
    Option (Heap × Ptr) :=
  let parent_side := get_side h parent node
  let s1 :=
    if parent_side ≠ side then rotate h (node :: parent :: rest)
    else (h, node :: parent :: rest)
  match s1 with
  | (h1, top :: tail) =>
    let s2 := rotate h1 tail
    match s2 with
    | (h2, y :: z :: t2) =>
      let h3 := set_black h2 z
      let h4 := set_red h3 y
      some (h4, (top :: y :: z :: t2).getLastD top)
    | _ => none
  | (_, []) => none

/-- `fix_extra_red`: the red-red fixup loop after insertion.  The stack
has the new node at its head.  Case 1 (red aunt) recolors and moves two
levels up (`stacksz -= 2` pops the top two entries); case 2 resolves
with at most two rotations and returns.  When the loop exhausts the
stack (`stacksz <= 1`) the remaining entry — the root — is forced
black.  Returns the final heap and the final `stack[0]` (which
`rb_insert` installs as the new root).  `none` marks the paths on which
the C code would read `stack[stacksz - 3]` outside the live stack. -/
def fix_extra_red (h : Heap) : List Ptr → Option (Heap × Ptr)
  | [] => none
  | [x] => some (set_black h x, x)
  | node :: parent :: rest =>
    if is_black h parent then some (h, (node :: parent :: rest).getLastD node)
    else
      match rest with
      | [] => none
      | grandparent :: rest2 =>
        let side := get_side h grandparent parent
        match get_child h grandparent side.flip with
        | some aunt =>
          if is_red h aunt then
            let h1 := set_red h grandparent
            let h2 := set_black h1 parent
            let h3 := set_black h2 aunt
            fix_extra_red h3 (grandparent :: rest2)
          else fix_case2 h node parent (grandparent :: rest2) side
        | none => fix_case2 h node parent (grandparent :: rest2) side

/-- `rb_insert`.  Initializes the node's child slots, handles the empty
tree (black root), otherwise finds the attachment point, links the node
red on the side the comparator chooses (`cmp(node, parent) ? LEFT :
RIGHT`), pushes it and runs the red-red fixup; the final `stack[0]`
becomes the root. -/
def rb_insert (maxd : Nat) (h : Heap) (t : Tree) (node : Ptr) :
    Option (Heap × Tree) :=
  let h0 := set_child h node .L none
  let h1 := set_child h0 node .R none
  match t.root with
  | none => some (set_black h1 node, { t with root := some node })
  | some r =>
    let stk := find_and_stack maxd h1 t.cmp node r
    match stk with
    | [] => none
    | parent :: prest =>
      let side : Side := if t.cmp node parent then .L else .R
      let h2 := set_child h1 parent side (some node)
      let h3 := set_red h2 node
      match fix_extra_red h3 (node :: parent :: prest) with
      | none => none
      | some (h4, newroot) => some (h4, { t with root := some newroot })

/-- One outcome of the common part of a `fix_missing_black` iteration:
either the fixup returns (with `none` marking a NULL dereference), or
the black deficit moves to the parent and the loop continues on the
popped stack. -/
inductive FmbStep where
  | done : Option (Heap × Ptr) → FmbStep
  | up : Heap → List Ptr → FmbStep

/-- `(!c || is_black(c))`: absent children count as black. -/
def black_opt (h : Heap) : Option Ptr → Bool
  | none => true
  | some c => is_black h c

/-- The part of a `fix_missing_black` iteration that starts at the
`c0`/`c1` reads (after the sibling has been made black).  `stk` is the
full current stack with `n` at its head and `parent` second. -/
def fmb_body (h : Heap) (null_node : Ptr) (stk : List Ptr)
    (n parent sib : Ptr) (n_side : Side) : FmbStep :=
  let c0 := get_child h sib .L
  let c1 := get_child h sib .R
  if black_opt h c0 && black_opt h c1 then
    let h1 := if n = null_node then set_child h parent n_side none else h
    let h2 := set_red h1 sib
    if is_black h2 parent then .up h2 stk.tail
    else .done (some (set_black h2 parent, stk.getLastD n))
  else
    let outer0 := if n_side = .L then c1 else c0
    let adjusted : Option (Heap × Ptr × Option Ptr) :=
      match outer0 with
      | some o =>
        if is_red h o then some (h, sib, some o)
        else
          match (if n_side = .L then c0 else c1) with
          | none => none
          | some inner =>
            let ha := set_red h sib
            let hb := set_black ha inner
            let inner_child := get_child hb inner n_side.flip
            let hc := set_child hb sib n_side inner_child
            let hd := set_child hc inner n_side.flip (some sib)
            let he := set_child hd parent n_side.flip (some inner)
            some (he, inner, get_child he inner n_side.flip)
      | none =>
        match (if n_side = .L then c0 else c1) with
        | none => none
        | some inner =>
          let ha := set_red h sib
          let hb := set_black ha inner
          let inner_child := get_child hb inner n_side.flip
          let hc := set_child hb sib n_side inner_child
          let hd := set_child hc inner n_side.flip (some sib)
          let he := set_child hd parent n_side.flip (some inner)
          some (he, inner, get_child he inner n_side.flip)
    match adjusted with
    | none => .done none
    | some (h1, sib1, outer1) =>
      let h2 := if n = null_node then set_child h1 parent n_side none else h1
      let h3 := set_color h2 sib1 ((h2 parent).black)
      let h4 := set_black h3 parent
      match outer1 with
      | none => .done none
      | some o =>
        let h5 := set_black h4 o
        let s := rotate h5 (sib1 :: stk.tail)
        .done (some (s.1, s.2.getLastD sib1))

/-- `fix_missing_black`: the black-deficit fixup loop after removal.
The stack has the deficit node at its head.  A red sibling is first
rotated away (`stack[stacksz-1] = sib; rotate; stack[stacksz++] = n`),
then the common part (`fmb_body`) runs.  The loop continues upward only
through the `stacksz--` in the both-children-black case; the fuel
mirrors that strictly shrinking stack (the callers pass the stack
length, which the loop can never exceed).  `none` marks NULL
dereferences (`is_black` or child reads on an absent sibling,
`set_black` on an absent inner/outer child). -/
def fix_missing_black (h : Heap) (null_node : Ptr) :
    Nat → List Ptr → Option (Heap × Ptr)
  | _, [] => none
  | _, [x] => some (h, x)
  | fuel, n :: parent :: rest =>
    let n_side := get_side h parent n
    match get_child h parent n_side.flip with
    | none => none
    | some sib =>
      if is_black h sib then
        match fmb_body h null_node (n :: parent :: rest) n parent sib n_side with
        | .done r => r
        | .up h2 stk2 =>
          match fuel with
          | 0 => none
          | fuel + 1 => fix_missing_black h2 null_node fuel stk2
      else
        let s1 := rotate h (sib :: parent :: rest)
        let h2 := set_red s1.1 parent
        let h3 := set_black h2 sib
        match s1.2 with
        | parent2 :: srest =>
          match get_child h3 parent2 n_side.flip with
          | none => none
          | some sib2 =>
            match fmb_body h3 null_node (n :: parent2 :: srest) n parent2 sib2
                n_side with
            | .done r => r
            | .up h4 stk4 =>
              match fuel with
              | 0 => none
              | fuel + 1 => fix_missing_black h4 null_node fuel stk4
        | [] => none

end RBC

namespace RBC

/-- The predecessor descent in `rb_remove`'s two-children case:
`while (get_child(node2, RB_RIGHT) && stacksz < _RB_MAX_TREE_DEPTH)`
advance to the right child and push it.  Returns the extended stack and
the final `node2`.  The fuel only renders the loop total; the callers
pass `maxd + 1`, which the size guard keeps from ever running out. -/
def pred_go (maxd : Nat) (h : Heap) : Nat → Ptr → List Ptr → List Ptr × Ptr
  | fuel, n2, stk =>
    match get_child h n2 .R with
    | none => (stk, n2)
    | some nxt =>
      if stk.length < maxd then
        match fuel with
        | 0 => (stk, n2)
        | fuel + 1 => pred_go maxd h fuel nxt (nxt :: stk)
      else (stk, n2)

/-- Swap the entries at the two list positions (used for the
`stack[stacksz0-1] <-> stack[stacksz-1]` exchange in `rb_remove`). -/
def list_swap (l : List Ptr) (i j : Nat) : List Ptr :=
  match l[i]?, l[j]? with
  | some a, some b => (l.set i b).set j a
  | _, _ => l

/-- The two-children case of `rb_remove`: swap `node` with its in-order
predecessor `node2` (rightmost node of the left subtree), exchanging
child links, the parents' references, the two stack entries and the two
color bits.  `stk` is the search stack with `node` at its head.  The
`hiparent` read (`stack[stacksz - 2]` of the original stack) happens
before the predecessor pushes, `loparent` (`stack[stacksz - 2]`) after
them, exactly as in the source. -/
def rb_remove_swap (maxd : Nat) (h : Heap) (t : Tree) (node : Ptr)
    (stk : List Ptr) : Heap × Tree × List Ptr :=
  let stacksz0 := stk.length
  let hiparent : Option Ptr := stk[1]?
  match get_child h node .L with
  | none => (h, t, stk)
  | some n2 =>
    let stk1 := if stk.length < maxd then n2 :: stk else stk
    let d := pred_go maxd h (maxd + 1) n2 stk1
    match d.1[1]? with
    | none => (h, t, d.1)
    | some loparent =>
      let node2 := d.2
      let h1 :=
        match hiparent with
        | some hp => set_child h hp (get_side h hp node) (some node2)
        | none => h
      let t1 :=
        match hiparent with
        | some _ => t
        | none => { t with root := some node2 }
      let h2 :=
        if loparent = node then
          let ha := set_child h1 node .L (get_child h1 node2 .L)
          set_child ha node2 .L (some node)
        else
          let ha := set_child h1 loparent (get_side h1 loparent node2) (some node)
          let tmp := get_child ha node .L
          let hb := set_child ha node .L (get_child ha node2 .L)
          set_child hb node2 .L tmp
      let h3 := set_child h2 node2 .R (get_child h2 node .R)
      let h4 := set_child h3 node .R none
      let stk3 := list_swap d.1 0 (d.1.length - stacksz0)
      let ctmp := (h4 node).black
      let h5 := set_color h4 node ((h4 node2).black)
      let h6 := set_color h5 node2 ctmp
      (h6, t1, stk3)

/-- `rb_remove`.  On the empty tree the source hands the NULL root to
`find_and_stack`, which dereferences it: modeled as `none`.  If the
search stack's top is not the node, the removal is a no-op.  Otherwise
the two-children case first swaps the node with its in-order
predecessor; then the node (now with at most one child) is unlinked:
the root case updates the root directly, a present child is spliced in
(forced black if either was red), a black childless node triggers the
black-deficit fixup with itself as placeholder, and a red childless
node is simply unlinked.  Finally `tree->root = stack[0]`. -/
def rb_remove (maxd : Nat) (h : Heap) (t : Tree) (node : Ptr) :
    Option (Heap × Tree) :=
  match t.root with
  | none => none
  | some r =>
    let stk0 := find_and_stack maxd h t.cmp node r
    match stk0 with
    | [] => none
    | top :: _ =>
      if node ≠ top then some (h, t)
      else
        let s1 :=
          if (get_child h node .L).isSome && (get_child h node .R).isSome then
            rb_remove_swap maxd h t node stk0
          else (h, t, stk0)
        match s1 with
        | (h1, t1, stk) =>
          let child :=
            match get_child h1 node .L with
            | some c => some c
            | none => get_child h1 node .R
          match stk with
          | [] => none
          | [_] =>
            match child with
            | some c => some (set_black h1 c, { t1 with root := some c })
            | none => some (h1, { t1 with root := none })
          | _ :: parent :: _ =>
            match child with
            | none =>
              if is_black h1 node then
                match fix_missing_black h1 node stk.length stk with
                | none => none
                | some (h2, bot) => some (h2, { t1 with root := some bot })
              else
                let h2 := set_child h1 parent (get_side h1 parent node) none
                some (h2, { t1 with root := some (stk.getLastD node) })
            | some c =>
              let h2 := set_child h1 parent (get_side h1 parent node) (some c)
              let h3 :=
                if is_red h2 node || is_red h2 c then set_black h2 c else h2
              some (h3, { t1 with root := some (stk.getLastD node) })

/-- Loop of `rb_contains`: `while (n && (n != node)) n = get_child(n,
cmp_func(node, n) ? RB_LEFT : RB_RIGHT);` followed by `return n ==
node`.  Entering the body with a NULL `node` would hand NULL to the
comparator (outside its contract): modeled as `none`.  The C loop is
unbounded; the fuel is a modeling device and every theorem supplies
enough for the tree at hand. -/
def contains_go (h : Heap) (cmp : Ptr → Ptr → Bool) (node : Option Ptr) :
    Nat → Option Ptr → Option Bool
  | fuel, n =>
    if n = none || n = node then some (decide (n = node))
    else
      match n, node with
      | some np, some nodep =>
        match fuel with
        | 0 => none
        | fuel + 1 =>
          contains_go h cmp node fuel
            (get_child h np (if cmp nodep np then .L else .R))
      | _, _ => none

/-- `rb_contains`. -/
def rb_contains (maxd : Nat) (h : Heap) (t : Tree) (node : Option Ptr) :
    Option Bool :=
  contains_go h t.cmp node maxd t.root

/-- `__rb_get_minmax`: `for (n = tree->root; n && get_child(n, side); n =
get_child(n, side));`.  Unbounded in C; fuel as for `rb_contains`. -/
def rb_get_minmax_go (h : Heap) (side : Side) : Nat → Option Ptr → Option Ptr
  | _, none => none
  | fuel, some n =>
    match get_child h n side with
    | none => some n
    | some c =>
      match fuel with
      | 0 => some n
      | fuel + 1 => rb_get_minmax_go h side fuel (some c)

/-- `__rb_get_minmax` on a tree. -/
def rb_get_minmax (maxd : Nat) (h : Heap) (t : Tree) (side : Side) :
    Option Ptr :=
  rb_get_minmax_go h side maxd t.root

/-- `rb_get_min`. -/
def rb_get_min (maxd : Nat) (h : Heap) (t : Tree) : Option Ptr :=
  rb_get_minmax maxd h t .L

/-- `rb_get_max`. -/
def rb_get_max (maxd : Nat) (h : Heap) (t : Tree) : Option Ptr :=
  rb_get_minmax maxd h t .R

end RBC

namespace RBC

/-- `rb_foreach_t`: the traversal stack holds node pointers with the
"went left" flag packed in the pointer LSB; `top` is `RB_ITER_UNINIT`,
`RB_ITER_DONE`, or the live size.  The model keeps the live entries as
a list (head = `stack[top-1]`) with the flag unpacked. -/
inductive IterState where
  | uninit : IterState
  | done : IterState
  | active : List (Ptr × Bool) → IterState
deriving DecidableEq, Repr

/-- The "push the leftmost path" loops of `__rb_foreach_next`: `while
(n) { if (top >= _RB_EFFECTIVE_DEPTH_LIMIT - 2) {top = DONE; return
NULL;} push (n, went_left = true); n = left child; }`.  `none` is the
safety-cap abort (iteration ends).  The fuel mirrors the cap: each push
grows the stack the cap bounds, and callers pass `maxd`. -/
def push_left (maxd : Nat) (h : Heap) :
    Nat → Option Ptr → List (Ptr × Bool) → Option (List (Ptr × Bool))
  | _, none, stk => some stk
  | fuel, some n, stk =>
    if maxd - 2 ≤ stk.length then none
    else
      match fuel with
      | 0 => none
      | fuel + 1 => push_left maxd h fuel (get_child h n .L) ((n, true) :: stk)

/-- The main loop of `__rb_foreach_next`: pop entries reached by a right
descent; an entry reached by a left descent is re-pushed with its flag
cleared, the leftmost path of its right subtree is pushed, and the
entry is yielded.  An emptied stack means the traversal is done. -/
def foreach_loop (maxd : Nat) (h : Heap) :
    List (Ptr × Bool) → Option Ptr × IterState
  | [] => (none, .done)
  | (n, went_left) :: rest =>
    if went_left then
      match push_left maxd h maxd (get_child h n .R) ((n, false) :: rest) with
      | none => (none, .done)
      | some stk => (some n, .active stk)
    else foreach_loop maxd h rest

/-- `__rb_foreach_next`.  An empty tree returns NULL leaving the
iterator state untouched; a done iterator stays done; an uninitialized
iterator seeds the stack with the leftmost path from the root and falls
through to the main loop. -/
def rb_foreach_next (maxd : Nat) (h : Heap) (t : Tree) (f : IterState) :
    Option Ptr × IterState :=
  match t.root with
  | none => (none, f)
  | some root =>
    match f with
    | .done => (none, .done)
    | .uninit =>
      match push_left maxd h maxd (some root) [] with
      | none => (none, .done)
      | some stk => foreach_loop maxd h stk
    | .active stk => foreach_loop maxd h stk

/-- Drive `__rb_foreach_next` until it yields NULL, collecting the
yielded nodes in order (what `RB_FOREACH` iterates over).  The fuel
bounds the number of calls; `n + 1` calls suffice for a tree of `n`
nodes. -/
def rb_foreach_all (maxd : Nat) (h : Heap) (t : Tree) :
    Nat → IterState → List Ptr
  | 0, _ => []
  | fuel + 1, f =>
    match rb_foreach_next maxd h t f with
    | (none, _) => []
    | (some n, f2) => n :: rb_foreach_all maxd h t fuel f2

/-- `rb_cached_t` with both `_RB_ENABLE_LEFTMOST_CACHE` and
`_RB_ENABLE_RIGHTMOST_CACHE` compiled in. -/
structure CachedTree where
  rb_root : Tree
  rb_leftmost : Option Ptr
  rb_rightmost : Option Ptr

/-- `update_cache_insert`. -/
def update_cache_insert (ct : CachedTree) (node : Ptr) : CachedTree :=
  let ct1 :=
    match ct.rb_leftmost with
    | none => { ct with rb_leftmost := some node }
    | some lm =>
      if ct.rb_root.cmp node lm then { ct with rb_leftmost := some node }
      else ct
  match ct1.rb_rightmost with
  | none => { ct1 with rb_rightmost := some node }
  | some rm =>
    if ct1.rb_root.cmp rm node then { ct1 with rb_rightmost := some node }
    else ct1

/-- `update_cache_remove`: a removed cached extremum is recomputed by an
uncached `__rb_get_minmax` descent. -/
def update_cache_remove (maxd : Nat) (h : Heap) (ct : CachedTree)
    (node : Ptr) : CachedTree :=
  let ct1 :=
    if ct.rb_leftmost = some node then
      { ct with rb_leftmost := rb_get_minmax maxd h ct.rb_root .L }
    else ct
  if ct1.rb_rightmost = some node then
    { ct1 with rb_rightmost := rb_get_minmax maxd h ct1.rb_root .R }
  else ct1

/-- `rb_cached_insert`. -/
def rb_cached_insert (maxd : Nat) (h : Heap) (ct : CachedTree) (node : Ptr) :
    Option (Heap × CachedTree) :=
  match rb_insert maxd h ct.rb_root node with
  | none => none
  | some (h2, t2) =>
    some (h2, update_cache_insert { ct with rb_root := t2 } node)

/-- `rb_cached_remove`. -/
def rb_cached_remove (maxd : Nat) (h : Heap) (ct : CachedTree) (node : Ptr) :
    Option (Heap × CachedTree) :=
  match rb_remove maxd h ct.rb_root node with
  | none => none
  | some (h2, t2) =>
    some (h2, update_cache_remove maxd h2 { ct with rb_root := t2 } node)

/-- `rb_cached_get_min` with the leftmost cache compiled in. -/
def rb_cached_get_min (ct : CachedTree) : Option Ptr := ct.rb_leftmost

/-- `rb_cached_get_max` with the rightmost cache compiled in. -/
def rb_cached_get_max (ct : CachedTree) : Option Ptr := ct.rb_rightmost

/-- `rb_cached_contains`: bounds short-circuits against the caches, then
the plain search. -/
def rb_cached_contains (maxd : Nat) (h : Heap) (ct : CachedTree)
    (node : Ptr) : Option Bool :=
  match ct.rb_leftmost with
  | some lm =>
    if ct.rb_root.cmp node lm then some false
    else
      match ct.rb_rightmost with
      | some rm =>
        if ct.rb_root.cmp rm node then some false
        else rb_contains maxd h ct.rb_root (some node)
      | none => rb_contains maxd h ct.rb_root (some node)
  | none =>
    match ct.rb_rightmost with
    | some rm =>
      if ct.rb_root.cmp rm node then some false
      else rb_contains maxd h ct.rb_root (some node)
    | none => rb_contains maxd h ct.rb_root (some node)

end RBC

namespace RBC

/-- `rb_batch_t`: the pending node buffer.  `count` is the list length;
the capacity bookkeeping and `malloc`/`realloc` growth are allocation
details with no effect on the committed tree and are not modeled
(`rb_batch_add` always succeeds here, matching the non-failure path). -/
structure Batch where
  nodes : List Ptr
deriving DecidableEq, Repr

/-- `rb_batch_add` (the successful path: append to the buffer). -/
def rb_batch_add (b : Batch) (node : Ptr) : Batch :=
  { nodes := b.nodes ++ [node] }

/-- Insert one element into a list sorted by `cmp`. -/
def insert_sorted (cmp : Ptr → Ptr → Bool) (x : Ptr) : List Ptr → List Ptr
  | [] => [x]
  | y :: ys => if cmp x y then x :: y :: ys else y :: insert_sorted cmp x ys

/-- Models `qsort(3)` with the `rb_batch_qsort_cmp` wrapper, which
returns `cmp(a,b) ? -1 : 1` and never 0.  For a comparator under which
no two buffered nodes are equivalent, any conforming qsort produces the
unique list that is sorted with respect to the wrapper, which this
insertion sort computes. -/
def sort_by_cmp (cmp : Ptr → Ptr → Bool) (l : List Ptr) : List Ptr :=
  l.foldr (insert_sorted cmp) []

/-- `rb_batch_build_balanced`: pick the middle element of
`nodes[s..e]` as subtree root, recurse on the two halves, then write
the node's child slots (`children[RB_LEFT] = left | RB_COLOR_MASK`
makes the node black with `left` as left child; `children[RB_RIGHT] =
right`).  The C recursion terminates because the range shrinks; the
fuel only renders that measure structural, and the callers pass the
batch size, which dominates the recursion depth. -/
def rb_batch_build_balanced (nodes : List Ptr) :
    Nat → Heap → Nat → Nat → Heap × Option Ptr
  | 0, h, _, _ => (h, none)
  | fuel + 1, h, s, e =>
    if e < s then (h, none)
    else
      let mid := s + (e - s) / 2
      let node := nodes.getD mid 0
      let lp : Heap × Option Ptr :=
        if s < mid then rb_batch_build_balanced nodes fuel h s (mid - 1)
        else (h, none)
      let rp : Heap × Option Ptr :=
        if mid < e then rb_batch_build_balanced nodes fuel lp.1 (mid + 1) e
        else (lp.1, none)
      let h3 : Heap := fun p =>
        if p = node then { left := lp.2, right := rp.2, black := true }
        else rp.1 p
      (h3, some node)

/-- `rb_batch_color_all_black`: recursively set every node's color bit.
The C recursion is structural on the (acyclic) just-built tree; the
fuel renders it total, and callers pass the batch size, which bounds
the tree depth. -/
def rb_batch_color_all_black (h : Heap) : Nat → Option Ptr → Heap
  | _, none => h
  | 0, some _ => h
  | fuel + 1, some n =>
    let l := (h n).left
    let r := (h n).right
    let h1 : Heap := fun p => if p = n then { h p with black := true } else h p
    let h2 := rb_batch_color_all_black h1 fuel l
    rb_batch_color_all_black h2 fuel r

/-- Insert a list of nodes one-by-one (propagating a fault). -/
def insert_all (maxd : Nat) : Heap → Tree → List Ptr → Option (Heap × Tree)
  | h, t, [] => some (h, t)
  | h, t, n :: ns =>
    match rb_insert maxd h t n with
    | none => none
    | some (h2, t2) => insert_all maxd h2 t2 ns

/-- `rb_batch_commit`: nothing to do for an empty batch; into an empty
tree, sort, build the balanced tree and color it black; into a
non-empty tree, fall back to one-by-one insertion.  The batch is
cleared (`batch->count = 0`). -/
def rb_batch_commit (maxd : Nat) (h : Heap) (t : Tree) (b : Batch) :
    Option (Heap × Tree × Batch) :=
  if b.nodes.length = 0 then some (h, t, b)
  else
    match t.root with
    | none =>
      let sorted := sort_by_cmp t.cmp b.nodes
      let s := rb_batch_build_balanced sorted b.nodes.length h 0
        (b.nodes.length - 1)
      let h2 := rb_batch_color_all_black s.1 b.nodes.length s.2
      some (h2, { t with root := s.2 }, { nodes := [] })
    | some _ =>
      match insert_all maxd h t b.nodes with
      | none => none
      | some (h2, t2) => some (h2, t2, { nodes := [] })

/-- `rb_cached_batch_commit`: empty batches return immediately;
otherwise commit into the underlying tree and (re)fill each cache that
was empty, when the tree is now non-empty. -/
def rb_cached_batch_commit (maxd : Nat) (h : Heap) (ct : CachedTree)
    (b : Batch) : Option (Heap × CachedTree × Batch) :=
  if b.nodes.length = 0 then some (h, ct, b)
  else
    match rb_batch_commit maxd h ct.rb_root b with
    | none => none
    | some (h2, t2, b2) =>
      let ct2 := { ct with rb_root := t2 }
      let ct3 :=
        if ct2.rb_leftmost = none ∧ t2.root ≠ none then
          { ct2 with rb_leftmost := rb_get_minmax maxd h2 t2 .L }
        else ct2
      let ct4 :=
        if ct3.rb_rightmost = none ∧ t2.root ≠ none then
          { ct3 with rb_rightmost := rb_get_minmax maxd h2 t2 .R }
        else ct3
      some (h2, ct4, b2)

end RBC

namespace RBC

/-- `rb_validation_t`.  `error_msg` keeps the literal C message text. -/
structure Validation where
  valid : Bool
  node_count : Nat
  black_height : Nat
  node_colors : Bool
  null_nodes_black : Bool
  red_children_black : Bool
  black_height_consistent : Bool
  single_child_red : Bool
  root_is_black : Bool
  bst_property : Bool
  cache_consistency : Bool
  error_msg : Option String
  error_node : Option Ptr
  violation_property : Nat
deriving DecidableEq, Repr

/-- The all-fields-valid initial report of `rb_validate_tree`. -/
def validation_init : Validation where
  valid := true
  node_count := 0
  black_height := 0
  node_colors := true
  null_nodes_black := true
  red_children_black := true
  black_height_consistent := true
  single_child_red := true
  root_is_black := true
  bst_property := true
  cache_consistency := true
  error_msg := none
  error_node := none
  violation_property := 0

/-- `set_validation_error`: record the first violation only. -/
def set_validation_error (res : Validation) (msg : String)
    (node : Option Ptr) (property : Nat) : Validation :=
  if res.valid then
    { res with
      valid := false
      error_msg := some msg
      error_node := node
      violation_property := property }
  else res

/-- `validate_node_recursive`.  Returns the updated report and the black
height of the subtree (`none` is the C `-1` failure value).  The
property-1 check can never fire with a one-bit color and the
`min_node`/`max_node` context fields are written but never read by
`rb_validate_tree`, so neither appears here.  The C recursion is
structural on the (assumed acyclic) tree; the fuel renders it total. -/
def validate_node_rec (h : Heap) (cmp : Ptr → Ptr → Bool) :
    Nat → Option Ptr → Option Ptr → Validation → Validation × Option Nat
  | _, none, _, res => (res, some 0)
  | 0, some _, _, res => (res, none)
  | fuel + 1, some node, parent, res =>
    let res := { res with node_count := res.node_count + 1 }
    let bst_fail : Option String :=
      match parent with
      | none => none
      | some par =>
        if get_child h par .L = some node then
          if cmp node par then none
          else some "BST property violated: left child >= parent"
        else if get_child h par .R = some node then
          if cmp node par then some "BST property violated: right child < parent"
          else none
        else none
    match bst_fail with
    | some msg =>
      let res := { res with bst_property := false }
      (set_validation_error res msg (some node) 0, none)
    | none =>
      let left := get_child h node .L
      let right := get_child h node .R
      if is_red h node &&
          ((left.any fun l => is_red h l) || (right.any fun r => is_red h r)) then
        let res := { res with red_children_black := false }
        (set_validation_error res
          "Property 3 violated: Red node has red child" (some node) 3, none)
      else if left.isSome && !right.isSome &&
          (left.all fun l => is_black h l) then
        let res := { res with single_child_red := false }
        (set_validation_error res
          "Property 5 violated: Single left child is black" (some node) 5, none)
      else if !left.isSome && right.isSome &&
          (right.all fun r => is_black h r) then
        let res := { res with single_child_red := false }
        (set_validation_error res
          "Property 5 violated: Single right child is black" (some node) 5, none)
      else
        match validate_node_rec h cmp fuel left (some node) res with
        | (res, none) => (res, none)
        | (res, some lbh) =>
          match validate_node_rec h cmp fuel right (some node) res with
          | (res, none) => (res, none)
          | (res, some rbh) =>
            if lbh ≠ rbh then
              let res := { res with black_height_consistent := false }
              (set_validation_error res
                "Property 4 violated: Inconsistent black height in subtrees"
                (some node) 4, none)
            else
              (res, some (if is_black h node then lbh + 1 else lbh))

/-- `rb_validate_tree`.  The `!tree || !tree->cmp_func` guard cannot
fire in the model (a `Tree` always carries a comparator).  An empty
tree is valid; a red root fails immediately; otherwise the recursive
walk runs and a non-negative black height is recorded. -/
def rb_validate_tree (fuel : Nat) (h : Heap) (t : Tree) : Validation :=
  match t.root with
  | none => validation_init
  | some root =>
    if is_red h root then
      set_validation_error { validation_init with root_is_black := false }
        "Root node is red (violates standard RB convention)" (some root) 0
    else
      match validate_node_rec h t.cmp fuel (some root) none validation_init with
      | (res, some bh) => { res with black_height := bh }
      | (res, none) => { res with valid := false }

/-- `rb_validate_cached_tree` (both caches compiled in). -/
def rb_validate_cached_tree (maxd fuel : Nat) (h : Heap) (ct : CachedTree) :
    Validation :=
  let res := rb_validate_tree fuel h ct.rb_root
  if !res.valid then res
  else
    match ct.rb_root.root with
    | none =>
      if ct.rb_leftmost.isSome then
        set_validation_error { res with cache_consistency := false }
          "Leftmost cache non-NULL in empty tree" ct.rb_leftmost 0
      else if ct.rb_rightmost.isSome then
        set_validation_error { res with cache_consistency := false }
          "Rightmost cache non-NULL in empty tree" ct.rb_rightmost 0
      else res
    | some _ =>
      if ct.rb_leftmost ≠ rb_get_minmax maxd h ct.rb_root .L then
        set_validation_error { res with cache_consistency := false }
          "Leftmost cache points to wrong node" ct.rb_leftmost 0
      else if ct.rb_rightmost ≠ rb_get_minmax maxd h ct.rb_root .R then
        set_validation_error { res with cache_consistency := false }
          "Rightmost cache points to wrong node" ct.rb_rightmost 0
      else res

end RBC

namespace RBC

/-- Zero-initialized node storage: both child words 0 (`NULL` children,
color bit 0 = `RB_RED`), as the caller provides before first insertion. -/
def init_heap : Heap := fun _ => { left := none, right := none, black := false }

/-- An id-ordered comparator (a strict total order on identities). -/
def lt_cmp : Ptr → Ptr → Bool := fun a b => decide (a < b)

/-- A strict-weak-order comparator with one tie: nodes 0 and 1 carry the
same key 5, node 2 carries key 6. -/
def tie_key : Ptr → Nat := fun p => if p = 2 then 6 else 5

/-- Comparison by `tie_key`. -/
def tie_cmp : Ptr → Ptr → Bool := fun a b => decide (tie_key a < tie_key b)

/-- `x` can be reached from `a` by following child pointers in `h`. -/
inductive Reachable (h : Heap) : Ptr → Ptr → Prop
  | refl (x : Ptr) : Reachable h x x
  | left {a b c : Ptr} : (h a).left = some b → Reachable h b c → Reachable h a c
  | right {a b c : Ptr} : (h a).right = some b → Reachable h b c → Reachable h a c

theorem Reachable.child_snoc {h : Heap} {a b : Ptr} (hab : Reachable h a b)
    {c : Ptr} {s : Side} (hc : get_child h b s = some c) : Reachable h a c := by
  induction hab with
  | refl x =>
    cases s with
    | L => exact .left hc (.refl c)
    | R => exact .right hc (.refl c)
  | left hl _ ih => exact .left hl (ih hc)
  | right hr _ ih => exact .right hr (ih hc)

theorem fas_go_sound {h : Heap} {cmp : Ptr → Ptr → Bool} {node r : Ptr} :
    ∀ (fuel : Nat) (stk : List Ptr), stk ≠ [] →
      (∀ y ∈ stk, Reachable h r y) →
      fas_go h cmp node stk fuel ≠ [] ∧
        ∀ y ∈ fas_go h cmp node stk fuel, Reachable h r y := by
  intro fuel
  induction fuel with
  | zero =>
    intro stk hne hall
    match stk, hne with
    | top :: rest, _ =>
      unfold fas_go
      by_cases htop : top = node
      · simpa [htop] using hall
      · cases hch : get_child h top (if cmp node top then .L else .R) with
        | none => simpa [htop, hch] using hall
        | some ch => simpa [htop, hch] using hall
  | succ fuel ih =>
    intro stk hne hall
    match stk, hne with
    | top :: rest, _ =>
      unfold fas_go
      by_cases htop : top = node
      · simpa [htop] using hall
      · cases hch : get_child h top (if cmp node top then .L else .R) with
        | none => simpa [htop, hch] using hall
        | some ch =>
          simp only [htop, hch, if_neg]
          refine ih (ch :: top :: rest) (by simp) ?_
          intro y hy
          rcases List.mem_cons.mp hy with hy | hy
          · exact hy ▸ (hall top (by simp)).child_snoc hch
          · exact hall y hy

theorem find_and_stack_sound {maxd : Nat} {h : Heap} {cmp : Ptr → Ptr → Bool}
    {node r : Ptr} :
    find_and_stack maxd h cmp node r ≠ [] ∧
      ∀ y ∈ find_and_stack maxd h cmp node r, Reachable h r y :=
  fas_go_sound (maxd - 3) [r] (by simp)
    (by intro y hy; simp at hy; subst hy; exact Reachable.refl y)

/-- C5 (amended): on a tree with a non-NULL root, removing a node that
is not linked in the tree (not reachable from the root) leaves the heap
and the tree exactly unchanged. -/
theorem rb_remove_absent_noop (maxd : Nat) (h : Heap) (t : Tree)
    (r node : Ptr) (hroot : t.root = some r)
    (habs : ¬ Reachable h r node) :
    rb_remove maxd h t node = some (h, t) := by
  rcases hfs : find_and_stack maxd h t.cmp node r with _ | ⟨top, rest⟩
  · exact absurd hfs find_and_stack_sound.1
  · have htop : Reachable h r top :=
      find_and_stack_sound.2 top (by rw [hfs]; simp)
    have hne : node ≠ top := fun he => habs (he ▸ htop)
    simp [rb_remove, hroot, hfs, hne]

/-- C5 (counterexample): the claim ranges over every tree, but on the
empty tree `rb_remove` hands the NULL root to `find_and_stack`, which
dereferences it (`cmp_func(node, NULL)` / `get_child(NULL, side)`) —
undefined behavior, not a no-op; the model marks the run as faulting. -/
theorem rb_remove_empty_tree_faults :
    rb_remove 121 init_heap { root := none, cmp := lt_cmp } 0 = none := rfl

/-- C5 (witness): a concrete no-op removal — node 0 is absent from the
singleton tree rooted at node 1. -/
theorem rb_remove_absent_noop_witness :
    rb_remove 121 init_heap { root := some 1, cmp := lt_cmp } 0 =
      some (init_heap, { root := some 1, cmp := lt_cmp }) := by
  refine rb_remove_absent_noop 121 init_heap _ 1 0 rfl ?_
  rintro (_ | ⟨hs, _⟩ | ⟨hs, _⟩) <;> simp [init_heap] at *

/-- C9: with a NULL root the search loop of `rb_contains` never runs and
the final test compares `NULL == NULL`: the call returns true even for
the NULL node argument. -/
theorem rb_contains_null_on_empty (maxd : Nat) (h : Heap)
    (cmp : Ptr → Ptr → Bool) :
    rb_contains maxd h { root := none, cmp := cmp } none = some true := by
  cases maxd <;> simp [rb_contains, contains_go]

/-- C10: committing an empty batch returns before touching anything:
tree, heap and batch buffer are returned unchanged, and the cached
variant likewise returns with both extremum caches untouched. -/
theorem rb_batch_commit_empty_noop (maxd : Nat) (h : Heap) (t : Tree)
    (ct : CachedTree) :
    rb_batch_commit maxd h t { nodes := [] } = some (h, t, { nodes := [] }) ∧
      rb_cached_batch_commit maxd h ct { nodes := [] } =
        some (h, ct, { nodes := [] }) := by
  constructor <;> rfl

end RBC

namespace RBC

/-- C1 (failing run): under the strict-weak-order comparator `tie_cmp`
(nodes 0 and 1 share key 5, node 2 has key 6 — ties are explicitly
supported by the comparator contract in `rbtree.h`), inserting 0, 1, 2
into an empty tree completes, yet the validator reports the tree
invalid: the black-aunt fixup rotation of the third insert promotes
node 1 with the equal node 0 as its left child, and the validator's
BST check demands `cmp(left_child, parent)` strictly. -/
theorem tie_sequence_fails_validation :
    (insert_all 121 init_heap { root := none, cmp := tie_cmp } [0, 1, 2]).map
        (fun st => ((rb_validate_tree 8 st.1 st.2).valid,
          (rb_validate_tree 8 st.1 st.2).bst_property,
          (rb_validate_tree 8 st.1 st.2).error_msg)) =
      some (false, false, some "BST property violated: left child >= parent") :=
  rfl

/-- C2 (failing run): committing a batch of two distinct nodes into an
empty tree builds `node 0` with `node 1` as its single right child and
colors both black; the validator rejects it (property 5: a single child
must be red), contradicting both the spec and the source comment that
the all-black coloring "creates a valid (though not optimal) red-black
tree". -/
theorem batch_two_nodes_fails_validation :
    (rb_batch_commit 121 init_heap { root := none, cmp := lt_cmp }
          { nodes := [0, 1] }).map
        (fun s => ((rb_validate_tree 8 s.1 s.2.1).valid,
          (rb_validate_tree 8 s.1 s.2.1).single_child_red,
          (rb_validate_tree 8 s.1 s.2.1).error_msg)) =
      some (false, false,
        some "Property 5 violated: Single right child is black") :=
  rfl

end RBC

namespace RBC

/-- The linked structure under a root, with colors erased: the claims
about search, rotation, traversal and extrema depend only on the shape.
`ids` below is the in-order sequence of node identities. -/
inductive ST where
  | nil : ST
  | node (id : Ptr) (l r : ST)
deriving DecidableEq, Repr

/-- In-order sequence of node identities. -/
def ST.inorder : ST → List Ptr
  | .nil => []
  | .node x l r => l.inorder ++ x :: r.inorder

/-- Root pointer of a shape. -/
def rootPtr : ST → Option Ptr
  | .nil => none
  | .node x _ _ => some x

/-- The heap h links, under root pointer `r`, exactly the shape `T`. -/
def repS (h : Heap) : Option Ptr → ST → Prop
  | r, .nil => r = none
  | r, .node x l rt =>
    r = some x ∧ repS h (h x).left l ∧ repS h (h x).right rt

instance : ∀ (h : Heap) (r : Option Ptr) (T : ST), Decidable (repS h r T)
  | _, r, .nil => by unfold repS; infer_instance
  | h, r, .node x l rt =>
    have := instDecidableRepS h (h x).left l
    have := instDecidableRepS h (h x).right rt
    by unfold repS; infer_instance

theorem repS_root {h : Heap} {r : Option Ptr} {T : ST} (hr : repS h r T) :
    r = rootPtr T := by
  cases T with
  | nil => exact hr
  | node x l rt => exact hr.1

theorem repS_congr {h h2 : Heap} {T : ST}
    (hag : ∀ q ∈ T.inorder, (h2 q).left = (h q).left ∧
      (h2 q).right = (h q).right) :
    ∀ {r : Option Ptr}, repS h r T → repS h2 r T := by
  induction T with
  | nil => intro r hr; exact hr
  | node x l rt ihl ihr =>
    intro r hr
    obtain ⟨hx, hl, hrt⟩ := hr
    have hq := hag x (by simp [ST.inorder])
    refine ⟨hx, ?_, ?_⟩
    · rw [hq.1]
      exact ihl (fun q hq2 => hag q (by simp [ST.inorder, hq2])) hl
    · rw [hq.2]
      exact ihr (fun q hq2 => hag q (by simp [ST.inorder, hq2])) hrt

/-- One suspended ancestor of the focus: the focus hangs on the left
(resp. right) of `id`, whose other subtree is recorded. -/
inductive Frame where
  | lf (id : Ptr) (r : ST)
  | rf (id : Ptr) (l : ST)
deriving DecidableEq, Repr

/-- Rebuild the full shape from a focus and its ancestor context
(innermost frame first). -/
def plug : ST → List Frame → ST
  | T, [] => T
  | T, .lf x r :: ctx => plug (.node x T r) ctx
  | T, .rf x l :: ctx => plug (.node x l T) ctx

/-- The ancestor ids, innermost first: this is what the traversal stack
holds above the focus. -/
def frameIds : List Frame → List Ptr
  | [] => []
  | .lf x _ :: ctx => x :: frameIds ctx
  | .rf x _ :: ctx => x :: frameIds ctx

/-- In-order ids contributed by the context strictly before the focus. -/
def ctxL : List Frame → List Ptr
  | [] => []
  | .lf _ _ :: ctx => ctxL ctx
  | .rf p l :: ctx => ctxL ctx ++ l.inorder ++ [p]

/-- In-order ids contributed by the context strictly after the focus. -/
def ctxR : List Frame → List Ptr
  | [] => []
  | .lf p r :: ctx => (p :: r.inorder) ++ ctxR ctx
  | .rf _ _ :: ctx => ctxR ctx

theorem plug_inorder (ctx : List Frame) :
    ∀ T : ST, (plug T ctx).inorder = ctxL ctx ++ T.inorder ++ ctxR ctx := by
  induction ctx with
  | nil => intro T; simp [plug, ctxL, ctxR]
  | cons fr ctx ih =>
    intro T
    cases fr with
    | lf p r =>
      simp only [plug, ctxL, ctxR, ih, ST.inorder]
      simp
    | rf p l =>
      simp only [plug, ctxL, ctxR, ih, ST.inorder]
      simp

/-- All ids held by the context (frame ids plus their off-path
subtrees), innermost first. -/
def offIds : List Frame → List Ptr
  | [] => []
  | .lf p r :: ctx => p :: r.inorder ++ offIds ctx
  | .rf p l :: ctx => p :: l.inorder ++ offIds ctx

theorem mem_offIds {q : Ptr} : ∀ {ctx : List Frame},
    q ∈ offIds ctx ↔ q ∈ ctxL ctx ∨ q ∈ ctxR ctx := by
  intro ctx
  induction ctx with
  | nil => simp [offIds, ctxL, ctxR]
  | cons fr ctx ih =>
    cases fr with
    | lf p r =>
      simp only [offIds, ctxL, ctxR]
      simp [ih]
      tauto
    | rf p l =>
      simp only [offIds, ctxL, ctxR]
      simp [ih]
      tauto

/-- The id of the innermost context frame, if any. -/
def headFrameId : List Frame → Option Ptr
  | [] => none
  | .lf p _ :: _ => some p
  | .rf p _ :: _ => some p

theorem repS_plug_focus (ctx : List Frame) :
    ∀ {h : Heap} {r0 : Option Ptr} {T : ST},
      repS h r0 (plug T ctx) → repS h (rootPtr T) T := by
  induction ctx with
  | nil =>
    intro h r0 T hr
    exact (repS_root hr) ▸ hr
  | cons fr ctx ih =>
    intro h r0 T hr
    cases fr with
    | lf p r =>
      have hp := ih (T := .node p T r) hr
      have hl := hp.2.1
      rwa [repS_root hl] at hl
    | rf p l =>
      have hp := ih (T := .node p l T) hr
      have hrt := hp.2.2
      rwa [repS_root hrt] at hrt

end RBC

namespace RBC

theorem set_child_at_L (h : Heap) (n : Ptr) (v : Option Ptr) :
    set_child h n .L v n = { h n with left := v } := by
  simp [set_child]

theorem set_child_at_R (h : Heap) (n : Ptr) (v : Option Ptr) :
    set_child h n .R v n = { h n with right := v } := by
  simp [set_child]

theorem set_child_ne (h : Heap) (n : Ptr) (s : Side) (v : Option Ptr)
    {q : Ptr} (hq : q ≠ n) : set_child h n s v q = h q := by
  cases s <;> simp [set_child, hq]

theorem set_child_black (h : Heap) (n : Ptr) (s : Side) (v : Option Ptr)
    (q : Ptr) : ((set_child h n s v) q).black = (h q).black := by
  by_cases hq : q = n
  · subst hq; cases s <;> simp [set_child]
  · rw [set_child_ne h n s v hq]

theorem set_color_at (h : Heap) (n : Ptr) (b : Bool) :
    set_color h n b n = { h n with black := b } := by
  simp [set_color]

theorem set_color_ne (h : Heap) (n : Ptr) (b : Bool) {q : Ptr} (hq : q ≠ n) :
    set_color h n b q = h q := by
  simp [set_color, hq]

theorem set_color_left (h : Heap) (n : Ptr) (b : Bool) (q : Ptr) :
    ((set_color h n b) q).left = (h q).left := by
  by_cases hq : q = n
  · subst hq; simp [set_color]
  · rw [set_color_ne h n b hq]

theorem set_color_right (h : Heap) (n : Ptr) (b : Bool) (q : Ptr) :
    ((set_color h n b) q).right = (h q).right := by
  by_cases hq : q = n
  · subst hq; simp [set_color]
  · rw [set_color_ne h n b hq]

/-- Recoloring (`set_color`/`set_black`/`set_red`) never changes the
linked shape. -/
theorem repS_set_color {h : Heap} {n : Ptr} {b : Bool} {r : Option Ptr}
    {T : ST} (hr : repS h r T) : repS (set_color h n b) r T :=
  repS_congr (fun q _ => ⟨set_color_left h n b q, set_color_right h n b q⟩) hr

theorem plug_nodup_focus {T : ST} {ctx : List Frame}
    (hn : (plug T ctx).inorder.Nodup) : T.inorder.Nodup := by
  rw [plug_inorder] at hn
  exact (List.nodup_append.mp (List.nodup_append.mp hn).1).2.1

theorem plug_nodup_disjoint {T : ST} {ctx : List Frame}
    (hn : (plug T ctx).inorder.Nodup) :
    ∀ a ∈ T.inorder, a ∉ offIds ctx := by
  rw [plug_inorder] at hn
  intro a ha hoff
  rcases mem_offIds.mp hoff with hL | hR
  · have hd := (List.nodup_append.mp (List.nodup_append.mp hn).1).2.2
    exact hd hL ha
  · have hd := (List.nodup_append.mp hn).2.2
    exact hd (List.mem_append_right _ ha) hR

/-- How the innermost context frame must link to the new focus for the
grafting lemma: its focus-side slot holds the new focus root and its
other slot is untouched. -/
def parentCond (h h2 : Heap) (T2 : ST) : List Frame → Prop
  | [] => True
  | .lf p _ :: _ => (h2 p).left = rootPtr T2 ∧ (h2 p).right = (h p).right
  | .rf p _ :: _ => (h2 p).right = rootPtr T2 ∧ (h2 p).left = (h p).left

/-- Grafting: if `h` represents `plug T ctx` and `h2` (i) represents a
new focus `T2`, (ii) relinks the innermost frame to it, and (iii) agrees
with `h` on the links of every other context id, then `h2` represents
`plug T2 ctx`. -/
theorem repS_graft : ∀ (ctx : List Frame) {h h2 : Heap} {T T2 : ST},
    repS h (rootPtr (plug T ctx)) (plug T ctx) →
    (plug T ctx).inorder.Nodup →
    repS h2 (rootPtr T2) T2 →
    parentCond h h2 T2 ctx →
    (∀ q ∈ offIds ctx, headFrameId ctx ≠ some q →
      (h2 q).left = (h q).left ∧ (h2 q).right = (h q).right) →
    repS h2 (rootPtr (plug T2 ctx)) (plug T2 ctx) := by
  intro ctx
  induction ctx with
  | nil => intro h h2 T T2 _ _ h2T2 _ _; exact h2T2
  | cons fr ctx ih =>
    intro h h2 T T2 hrep hnod h2T2 hpar hagree
    cases fr with
    | lf p Tr =>
      simp only [plug] at hrep hnod ⊢
      have hfocus := repS_plug_focus ctx hrep
      have hpT : p ∉ Tr.inorder := by
        have h1 := plug_nodup_focus hnod
        simp only [ST.inorder] at h1
        have h2x := (List.nodup_append.mp h1).2.1
        exact (List.nodup_cons.mp h2x).1
      have hpoff : p ∉ offIds ctx :=
        plug_nodup_disjoint hnod p (by simp [ST.inorder])
      have hpar2 : (h2 p).left = rootPtr T2 ∧ (h2 p).right = (h p).right := hpar
      have hmemup : ∀ q ∈ offIds ctx, q ∈ offIds (Frame.lf p Tr :: ctx) := by
        intro q hq; simp [offIds, hq]
      have hagree2 : ∀ q ∈ offIds ctx,
          (h2 q).left = (h q).left ∧ (h2 q).right = (h q).right := by
        intro q hq
        refine hagree q (hmemup q hq) ?_
        intro he
        injection he with he2
        exact hpoff (he2 ▸ hq)
      refine ih (h := h) (T := ST.node p T Tr)
        hrep hnod ?_ ?_ (fun q hq _ => hagree2 q hq)
      · refine ⟨rfl, ?_, ?_⟩
        · rw [hpar2.1]; exact h2T2
        · rw [hpar2.2]
          refine repS_congr ?_ hfocus.2.2
          intro q hq
          refine hagree q (by simp [offIds, hq]) ?_
          intro he
          injection he with he2
          exact hpT (he2 ▸ hq)
      · cases ctx with
        | nil => exact trivial
        | cons fr2 ctx2 =>
          cases fr2 with
          | lf q Trq =>
            have hqmem : q ∈ offIds (Frame.lf q Trq :: ctx2) := by
              simp [offIds]
            have hpq : p ≠ q := fun he => hpoff (he ▸ hqmem)
            have hq2 := hagree2 q hqmem
            have hfq := repS_plug_focus ctx2
              (T := ST.node q (ST.node p T Tr) Trq) hrep
            have hql : (h q).left = some p := repS_root hfq.2.1
            exact ⟨by rw [hq2.1, hql]; rfl, hq2.2⟩
          | rf q Tlq =>
            have hqmem : q ∈ offIds (Frame.rf q Tlq :: ctx2) := by
              simp [offIds]
            have hpq : p ≠ q := fun he => hpoff (he ▸ hqmem)
            have hq2 := hagree2 q hqmem
            have hfq := repS_plug_focus ctx2
              (T := ST.node q Tlq (ST.node p T Tr)) hrep
            have hqr : (h q).right = some p := repS_root hfq.2.2
            exact ⟨by rw [hq2.2, hqr]; rfl, hq2.1⟩
    | rf p Tl =>
      simp only [plug] at hrep hnod ⊢
      have hfocus := repS_plug_focus ctx hrep
      have hpT : p ∉ Tl.inorder := by
        have h1 := plug_nodup_focus hnod
        simp only [ST.inorder] at h1
        have hd := (List.nodup_append.mp h1).2.2
        exact fun hm => hd hm (by simp)
      have hpoff : p ∉ offIds ctx :=
        plug_nodup_disjoint hnod p (by simp [ST.inorder])
      have hpar2 : (h2 p).right = rootPtr T2 ∧ (h2 p).left = (h p).left := hpar
      have hmemup : ∀ q ∈ offIds ctx, q ∈ offIds (Frame.rf p Tl :: ctx) := by
        intro q hq; simp [offIds, hq]
      have hagree2 : ∀ q ∈ offIds ctx,
          (h2 q).left = (h q).left ∧ (h2 q).right = (h q).right := by
        intro q hq
        refine hagree q (hmemup q hq) ?_
        intro he
        injection he with he2
        exact hpoff (he2 ▸ hq)
      refine ih (h := h) (T := ST.node p Tl T)
        hrep hnod ?_ ?_ (fun q hq _ => hagree2 q hq)
      · refine ⟨rfl, ?_, ?_⟩
        · rw [hpar2.2]
          refine repS_congr ?_ hfocus.2.1
          intro q hq
          refine hagree q (by simp [offIds, hq]) ?_
          intro he
          injection he with he2
          exact hpT (he2 ▸ hq)
        · rw [hpar2.1]; exact h2T2
      · cases ctx with
        | nil => exact trivial
        | cons fr2 ctx2 =>
          cases fr2 with
          | lf q Trq =>
            have hqmem : q ∈ offIds (Frame.lf q Trq :: ctx2) := by
              simp [offIds]
            have hpq : p ≠ q := fun he => hpoff (he ▸ hqmem)
            have hq2 := hagree2 q hqmem
            have hfq := repS_plug_focus ctx2
              (T := ST.node q (ST.node p Tl T) Trq) hrep
            have hql : (h q).left = some p := repS_root hfq.2.1
            exact ⟨by rw [hq2.1, hql]; rfl, hq2.2⟩
          | rf q Tlq =>
            have hqmem : q ∈ offIds (Frame.rf q Tlq :: ctx2) := by
              simp [offIds]
            have hpq : p ≠ q := fun he => hpoff (he ▸ hqmem)
            have hq2 := hagree2 q hqmem
            have hfq := repS_plug_focus ctx2
              (T := ST.node q Tlq (ST.node p Tl T)) hrep
            have hqr : (h q).right = some p := repS_root hfq.2.2
            exact ⟨by rw [hq2.2, hqr]; rfl, hq2.1⟩

end RBC

namespace RBC

theorem nodup_node_parts {x : Ptr} {l r : ST}
    (hn : (ST.node x l r).inorder.Nodup) :
    l.inorder.Nodup ∧ r.inorder.Nodup ∧ x ∉ l.inorder ∧ x ∉ r.inorder ∧
      ∀ q ∈ l.inorder, q ∉ r.inorder := by
  simp only [ST.inorder] at hn
  have h1 := List.nodup_append.mp hn
  have h2 := List.nodup_cons.mp h1.2.1
  refine ⟨h1.1, h2.2, ?_, h2.1, ?_⟩
  · intro hm
    exact h1.2.2 hm (by simp)
  · intro q hq hq2
    exact h1.2.2 hq (by simp [hq2])

theorem headFrameId_mem_offIds {ctx : List Frame} {g : Ptr}
    (hg : headFrameId ctx = some g) : g ∈ offIds ctx := by
  cases ctx with
  | nil => simp [headFrameId] at hg
  | cons fr ctx2 =>
    cases fr <;> simp [headFrameId] at hg <;> simp [offIds, hg]

/-- Common grafting step for a left rotation: if the rotated heap `h4`
has the computed link fields, it represents the rotated shape. -/
theorem graft_rotated_lf {h h4 : Heap} {c p : Ptr} {a b Tr : ST}
    {ctx : List Frame}
    (hrep : repS h (rootPtr (plug (ST.node p (ST.node c a b) Tr) ctx))
      (plug (ST.node p (ST.node c a b) Tr) ctx))
    (hnod : (plug (ST.node p (ST.node c a b) Tr) ctx).inorder.Nodup)
    (hc : (h4 c).left = rootPtr a ∧ (h4 c).right = some p)
    (hp : (h4 p).left = rootPtr b ∧ (h4 p).right = (h p).right)
    (hparc : parentCond h h4 (ST.node c a (ST.node p b Tr)) ctx)
    (hother : ∀ q, q ≠ c → q ≠ p → headFrameId ctx ≠ some q →
      (h4 q).left = (h q).left ∧ (h4 q).right = (h q).right) :
    repS h4 (rootPtr (plug (ST.node c a (ST.node p b Tr)) ctx))
      (plug (ST.node c a (ST.node p b Tr)) ctx) := by
  have hfp := repS_plug_focus ctx hrep
  have hfocus_nodup : (ST.node p (ST.node c a b) Tr).inorder.Nodup :=
    plug_nodup_focus hnod
  have hparts := nodup_node_parts hfocus_nodup
  have hparts2 := nodup_node_parts hparts.1
  have hcp : c ≠ p := by
    intro he
    exact hparts.2.2.1 (he ▸ (by simp [ST.inorder] : p ∈ (ST.node p a b).inorder))
  have hdisj := plug_nodup_disjoint hnod
  have hqne : ∀ q ∈ (ST.node p (ST.node c a b) Tr).inorder,
      headFrameId ctx ≠ some q := by
    intro q hq he
    exact hdisj q hq (headFrameId_mem_offIds he)
  have hmem_c : c ∈ (ST.node p (ST.node c a b) Tr).inorder := by
    simp [ST.inorder]
  have hmem_p : p ∈ (ST.node p (ST.node c a b) Tr).inorder := by
    simp [ST.inorder]
  -- representations of the three subtrees in h
  have hrep_cab : repS h (some c) (ST.node c a b) := by
    have hx := hfp.2.1
    rwa [repS_root hx] at hx
  have hrep_a : repS h (rootPtr a) a := by
    have hx := hrep_cab.2.1
    rwa [repS_root hx] at hx
  have hrep_b : repS h (rootPtr b) b := by
    have hx := hrep_cab.2.2
    rwa [repS_root hx] at hx
  have hrep_Tr : repS h (rootPtr Tr) Tr := by
    have hx := hfp.2.2
    rwa [repS_root hx] at hx
  have hpr : (h p).right = rootPtr Tr := repS_root hfp.2.2
  -- the transported subtree representations
  have hsub : ∀ (S : ST), (∀ q ∈ S.inorder,
        q ∈ (ST.node p (ST.node c a b) Tr).inorder ∧ q ≠ c ∧ q ≠ p) →
      repS h (rootPtr S) S → repS h4 (rootPtr S) S := by
    intro S hmem hS
    refine repS_congr ?_ hS
    intro q hq
    obtain ⟨hm, hqc, hqp⟩ := hmem q hq
    exact hother q hqc hqp (hqne q hm)
  have h4a : repS h4 (rootPtr a) a := by
    refine hsub a ?_ hrep_a
    intro q hq
    refine ⟨by simp [ST.inorder, hq], ?_, ?_⟩
    · intro he; exact hparts2.2.2.1 (he ▸ hq)
    · intro he; exact hparts.2.2.1 (he ▸ (by simp [ST.inorder, hq]))
  have h4b : repS h4 (rootPtr b) b := by
    refine hsub b ?_ hrep_b
    intro q hq
    refine ⟨by simp [ST.inorder, hq], ?_, ?_⟩
    · intro he; exact hparts2.2.2.2.1 (he ▸ hq)
    · intro he; exact hparts.2.2.1 (he ▸ (by simp [ST.inorder, hq]))
  have h4Tr : repS h4 (rootPtr Tr) Tr := by
    refine hsub Tr ?_ hrep_Tr
    intro q hq
    refine ⟨by simp [ST.inorder, hq], ?_, ?_⟩
    · intro he
      exact hparts.2.2.2.2 c (by simp [ST.inorder]) (he ▸ hq)
    · intro he; exact hparts.2.2.2.1 (he ▸ hq)
  have hT2 : repS h4 (rootPtr (ST.node c a (ST.node p b Tr)))
      (ST.node c a (ST.node p b Tr)) := by
    refine ⟨rfl, ?_, ?_⟩
    · rw [hc.1]; exact h4a
    · rw [hc.2]
      refine ⟨rfl, ?_, ?_⟩
      · rw [hp.1]; exact h4b
      · rw [hp.2, hpr]; exact h4Tr
  refine repS_graft ctx hrep hnod hT2 hparc ?_
  intro q hq hne
  have hqc : q ≠ c := fun he => hdisj c hmem_c (he ▸ hq)
  have hqp : q ≠ p := fun he => hdisj p hmem_p (he ▸ hq)
  exact hother q hqc hqp hne

end RBC

namespace RBC

/-- Mirror of `graft_rotated_lf` for a right rotation. -/
theorem graft_rotated_rf {h h4 : Heap} {c p : Ptr} {ca cb Tl : ST}
    {ctx : List Frame}
    (hrep : repS h (rootPtr (plug (ST.node p Tl (ST.node c ca cb)) ctx))
      (plug (ST.node p Tl (ST.node c ca cb)) ctx))
    (hnod : (plug (ST.node p Tl (ST.node c ca cb)) ctx).inorder.Nodup)
    (hc : (h4 c).right = rootPtr cb ∧ (h4 c).left = some p)
    (hp : (h4 p).right = rootPtr ca ∧ (h4 p).left = (h p).left)
    (hparc : parentCond h h4 (ST.node c (ST.node p Tl ca) cb) ctx)
    (hother : ∀ q, q ≠ c → q ≠ p → headFrameId ctx ≠ some q →
      (h4 q).left = (h q).left ∧ (h4 q).right = (h q).right) :
    repS h4 (rootPtr (plug (ST.node c (ST.node p Tl ca) cb) ctx))
      (plug (ST.node c (ST.node p Tl ca) cb) ctx) := by
  have hfp := repS_plug_focus ctx hrep
  have hfocus_nodup : (ST.node p Tl (ST.node c ca cb)).inorder.Nodup :=
    plug_nodup_focus hnod
  have hparts := nodup_node_parts hfocus_nodup
  have hparts2 := nodup_node_parts hparts.2.1
  have hdisj := plug_nodup_disjoint hnod
  have hqne : ∀ q ∈ (ST.node p Tl (ST.node c ca cb)).inorder,
      headFrameId ctx ≠ some q := by
    intro q hq he
    exact hdisj q hq (headFrameId_mem_offIds he)
  have hmem_c : c ∈ (ST.node p Tl (ST.node c ca cb)).inorder := by
    simp [ST.inorder]
  have hmem_p : p ∈ (ST.node p Tl (ST.node c ca cb)).inorder := by
    simp [ST.inorder]
  have hrep_ccab : repS h (some c) (ST.node c ca cb) := by
    have hx := hfp.2.2
    rwa [repS_root hx] at hx
  have hrep_ca : repS h (rootPtr ca) ca := by
    have hx := hrep_ccab.2.1
    rwa [repS_root hx] at hx
  have hrep_cb : repS h (rootPtr cb) cb := by
    have hx := hrep_ccab.2.2
    rwa [repS_root hx] at hx
  have hrep_Tl : repS h (rootPtr Tl) Tl := by
    have hx := hfp.2.1
    rwa [repS_root hx] at hx
  have hpl : (h p).left = rootPtr Tl := repS_root hfp.2.1
  have hcp : c ≠ p := fun he => hparts.2.2.2.1
    (he ▸ (by simp [ST.inorder] : c ∈ (ST.node c ca cb).inorder))
  have hsub : ∀ (S : ST), (∀ q ∈ S.inorder,
        q ∈ (ST.node p Tl (ST.node c ca cb)).inorder ∧ q ≠ c ∧ q ≠ p) →
      repS h (rootPtr S) S → repS h4 (rootPtr S) S := by
    intro S hmem hS
    refine repS_congr ?_ hS
    intro q hq
    obtain ⟨hm, hqc, hqp⟩ := hmem q hq
    exact hother q hqc hqp (hqne q hm)
  have h4ca : repS h4 (rootPtr ca) ca := by
    refine hsub ca ?_ hrep_ca
    intro q hq
    refine ⟨by simp [ST.inorder, hq], ?_, ?_⟩
    · intro he; exact hparts2.2.2.1 (he ▸ hq)
    · intro he; exact hparts.2.2.2.1 (he ▸ (by simp [ST.inorder, hq]))
  have h4cb : repS h4 (rootPtr cb) cb := by
    refine hsub cb ?_ hrep_cb
    intro q hq
    refine ⟨by simp [ST.inorder, hq], ?_, ?_⟩
    · intro he; exact hparts2.2.2.2.1 (he ▸ hq)
    · intro he; exact hparts.2.2.2.1 (he ▸ (by simp [ST.inorder, hq]))
  have h4Tl : repS h4 (rootPtr Tl) Tl := by
    refine hsub Tl ?_ hrep_Tl
    intro q hq
    refine ⟨by simp [ST.inorder, hq], ?_, ?_⟩
    · intro he
      exact hparts.2.2.2.2 q hq (he ▸ (by simp [ST.inorder] :
        c ∈ (ST.node c ca cb).inorder))
    · intro he; exact hparts.2.2.1 (he ▸ hq)
  have hT2 : repS h4 (rootPtr (ST.node c (ST.node p Tl ca) cb))
      (ST.node c (ST.node p Tl ca) cb) := by
    refine ⟨rfl, ?_, ?_⟩
    · rw [hc.2]
      refine ⟨rfl, ?_, ?_⟩
      · rw [hp.2, hpl]; exact h4Tl
      · rw [hp.1]; exact h4ca
    · rw [hc.1]; exact h4cb
  refine repS_graft ctx hrep hnod hT2 hparc ?_
  intro q hq hne
  have hqc : q ≠ c := fun he => hdisj c hmem_c (he ▸ hq)
  have hqp : q ≠ p := fun he => hdisj p hmem_p (he ▸ hq)
  exact hother q hqc hqp hne

end RBC

namespace RBC

theorem rotate_nil_fst (h : Heap) (c p : Ptr) :
    (rotate h (c :: p :: ([] : List Ptr))).1 =
      set_child
        (set_child
          (set_child h c (get_side h p c) (get_child h c (get_side h p c)))
          c (get_side h p c).flip (some p))
        p (get_side h p c) (get_child h c (get_side h p c).flip) := rfl

theorem rotate_nil_snd (h : Heap) (c p : Ptr) :
    (rotate h (c :: p :: ([] : List Ptr))).2 = p :: c :: [] := rfl

theorem rotate_cons_fst (h : Heap) (c p g : Ptr) (rest : List Ptr) :
    (rotate h (c :: p :: g :: rest)).1 =
      set_child
        (set_child
          (set_child (set_child h g (get_side h g p) (some c))
            c (get_side h p c) (get_child h c (get_side h p c)))
          c (get_side h p c).flip (some p))
        p (get_side h p c) (get_child h c (get_side h p c).flip) := rfl

theorem rotate_cons_snd (h : Heap) (c p g : Ptr) (rest : List Ptr) :
    (rotate h (c :: p :: g :: rest)).2 = p :: c :: g :: rest := rfl

/-- Left-rotation specification: with the focus on the parent `p` whose
left child is `c`, `rotate` on the stack `c :: p :: ancestors` yields
the stack with the two top entries swapped and a heap representing the
rotated shape in place (in-order ids are unchanged: both shapes list
`a ++ c :: b ++ p :: Tr`). -/
theorem rotate_spec_lf {h : Heap} {c p : Ptr} {a b Tr : ST} {ctx : List Frame}
    (hrep : repS h (rootPtr (plug (ST.node p (ST.node c a b) Tr) ctx))
      (plug (ST.node p (ST.node c a b) Tr) ctx))
    (hnod : (plug (ST.node p (ST.node c a b) Tr) ctx).inorder.Nodup) :
    (rotate h (c :: p :: frameIds ctx)).2 = p :: c :: frameIds ctx ∧
      repS (rotate h (c :: p :: frameIds ctx)).1
        (rootPtr (plug (ST.node c a (ST.node p b Tr)) ctx))
        (plug (ST.node c a (ST.node p b Tr)) ctx) := by
  have hfp := repS_plug_focus ctx hrep
  have hpl : (h p).left = some c := repS_root hfp.2.1
  have hpr : (h p).right = rootPtr Tr := repS_root hfp.2.2
  have hrep_cab : repS h (some c) (ST.node c a b) := by
    have hx := hfp.2.1
    rwa [repS_root hx] at hx
  have hcl : (h c).left = rootPtr a := repS_root hrep_cab.2.1
  have hcr : (h c).right = rootPtr b := repS_root hrep_cab.2.2
  have hfn := plug_nodup_focus hnod
  have hparts := nodup_node_parts hfn
  have hmem_c : c ∈ (ST.node p (ST.node c a b) Tr).inorder := by
    simp [ST.inorder]
  have hmem_p : p ∈ (ST.node p (ST.node c a b) Tr).inorder := by
    simp [ST.inorder]
  have hcp : c ≠ p := by
    intro he
    exact hparts.2.2.1
      (he ▸ (by simp [ST.inorder] : c ∈ (ST.node c a b).inorder))
  have hside : get_side h p c = .L := by
    unfold get_side
    rw [hpr]
    cases Tr with
    | nil => simp [rootPtr]
    | node y yl yr =>
      have hyc : y ≠ c := by
        intro he
        exact hparts.2.2.2.2 c (by simp [ST.inorder])
          (he ▸ (by simp [ST.inorder] : y ∈ (ST.node y yl yr).inorder))
      simp [rootPtr, hyc]
  cases ctx with
  | nil =>
    rw [show frameIds [] = [] from rfl]
    refine ⟨rotate_nil_snd h c p, ?_⟩
    rw [rotate_nil_fst h c p, hside]
    simp only [Side.flip]
    refine graft_rotated_lf (h := h) hrep hnod ?_ ?_ trivial ?_
    · constructor
      · rw [set_child_ne _ _ _ _ hcp, set_child_at_R, set_child_at_L]
        simp [get_child, hcl]
      · rw [set_child_ne _ _ _ _ hcp, set_child_at_R]
    · constructor
      · rw [set_child_at_L]
        simp [get_child, Side.flip, hcr]
      · rw [set_child_at_L, set_child_ne _ _ _ _ (Ne.symm hcp),
          set_child_ne _ _ _ _ (Ne.symm hcp)]
    · intro q hqc hqp _
      rw [set_child_ne _ _ _ _ hqp, set_child_ne _ _ _ _ hqc,
        set_child_ne _ _ _ _ hqc]
      exact ⟨rfl, rfl⟩
  | cons fr ctx2 =>
    have hdisj := plug_nodup_disjoint hnod
    have hcg0 : c ∉ offIds (fr :: ctx2) := hdisj c hmem_c
    have hpg0 : p ∉ offIds (fr :: ctx2) := hdisj p hmem_p
    cases fr with
    | lf g Trg =>
      have hgmem : g ∈ offIds (Frame.lf g Trg :: ctx2) := by simp [offIds]
      have hcg : c ≠ g := fun he => hcg0 (he ▸ hgmem)
      have hpg : p ≠ g := fun he => hpg0 (he ▸ hgmem)
      have hfg := repS_plug_focus ctx2
        (T := ST.node g (ST.node p (ST.node c a b) Tr) Trg) hrep
      have hgl : (h g).left = some p := repS_root hfg.2.1
      have hgr : (h g).right = rootPtr Trg := repS_root hfg.2.2
      have hgside : get_side h g p = .L := by
        unfold get_side
        rw [hgr]
        cases Trg with
        | nil => simp [rootPtr]
        | node y yl yr =>
          have hyp : y ≠ p := by
            intro he
            subst he
            exact hpg0 (by simp [offIds, ST.inorder])
          simp [rootPtr, hyp]
      rw [show frameIds (Frame.lf g Trg :: ctx2) = g :: frameIds ctx2
          from rfl]
      refine ⟨rotate_cons_snd h c p g (frameIds ctx2), ?_⟩
      rw [rotate_cons_fst h c p g (frameIds ctx2), hside, hgside]
      simp only [Side.flip]
      refine graft_rotated_lf (h := h) hrep hnod ?_ ?_ ?_ ?_
      · constructor
        · rw [set_child_ne _ _ _ _ hcp, set_child_at_R, set_child_at_L,
            set_child_ne _ _ _ _ hcg]
          simp [get_child, hcl]
        · rw [set_child_ne _ _ _ _ hcp, set_child_at_R]
      · constructor
        · rw [set_child_at_L]
          simp [get_child, Side.flip, set_child_ne _ _ _ _ hcg, hcr]
        · rw [set_child_at_L, set_child_ne _ _ _ _ (Ne.symm hcp),
            set_child_ne _ _ _ _ (Ne.symm hcp),
            set_child_ne _ _ _ _ hpg]
      · refine ⟨?_, ?_⟩
        · rw [set_child_ne _ _ _ _ (Ne.symm hpg),
            set_child_ne _ _ _ _ (Ne.symm hcg),
            set_child_ne _ _ _ _ (Ne.symm hcg), set_child_at_L]
          rfl
        · rw [set_child_ne _ _ _ _ (Ne.symm hpg),
            set_child_ne _ _ _ _ (Ne.symm hcg),
            set_child_ne _ _ _ _ (Ne.symm hcg), set_child_at_L]
      · intro q hqc hqp hqg
        have hqg2 : q ≠ g := by
          intro he
          exact hqg (by rw [he]; rfl)
        rw [set_child_ne _ _ _ _ hqp, set_child_ne _ _ _ _ hqc,
          set_child_ne _ _ _ _ hqc, set_child_ne _ _ _ _ hqg2]
        exact ⟨rfl, rfl⟩
    | rf g Tlg =>
      have hgmem : g ∈ offIds (Frame.rf g Tlg :: ctx2) := by simp [offIds]
      have hcg : c ≠ g := fun he => hcg0 (he ▸ hgmem)
      have hpg : p ≠ g := fun he => hpg0 (he ▸ hgmem)
      have hfg := repS_plug_focus ctx2
        (T := ST.node g Tlg (ST.node p (ST.node c a b) Tr)) hrep
      have hgr : (h g).right = some p := repS_root hfg.2.2
      have hgside : get_side h g p = .R := by
        unfold get_side
        rw [hgr]
        simp
      rw [show frameIds (Frame.rf g Tlg :: ctx2) = g :: frameIds ctx2
          from rfl]
      refine ⟨rotate_cons_snd h c p g (frameIds ctx2), ?_⟩
      rw [rotate_cons_fst h c p g (frameIds ctx2), hside, hgside]
      simp only [Side.flip]
      refine graft_rotated_lf (h := h) hrep hnod ?_ ?_ ?_ ?_
      · constructor
        · rw [set_child_ne _ _ _ _ hcp, set_child_at_R, set_child_at_L,
            set_child_ne _ _ _ _ hcg]
          simp [get_child, hcl]
        · rw [set_child_ne _ _ _ _ hcp, set_child_at_R]
      · constructor
        · rw [set_child_at_L]
          simp [get_child, Side.flip, set_child_ne _ _ _ _ hcg, hcr]
        · rw [set_child_at_L, set_child_ne _ _ _ _ (Ne.symm hcp),
            set_child_ne _ _ _ _ (Ne.symm hcp),
            set_child_ne _ _ _ _ hpg]
      · refine ⟨?_, ?_⟩
        · rw [set_child_ne _ _ _ _ (Ne.symm hpg),
            set_child_ne _ _ _ _ (Ne.symm hcg),
            set_child_ne _ _ _ _ (Ne.symm hcg), set_child_at_R]
          rfl
        · rw [set_child_ne _ _ _ _ (Ne.symm hpg),
            set_child_ne _ _ _ _ (Ne.symm hcg),
            set_child_ne _ _ _ _ (Ne.symm hcg), set_child_at_R]
      · intro q hqc hqp hqg
        have hqg2 : q ≠ g := by
          intro he
          exact hqg (by rw [he]; rfl)
        rw [set_child_ne _ _ _ _ hqp, set_child_ne _ _ _ _ hqc,
          set_child_ne _ _ _ _ hqc, set_child_ne _ _ _ _ hqg2]
        exact ⟨rfl, rfl⟩

end RBC

namespace RBC

/-- Right-rotation specification, mirror of `rotate_spec_lf`: the focus
parent `p` has `c` as its right child. -/
theorem rotate_spec_rf {h : Heap} {c p : Ptr} {ca cb Tl : ST}
    {ctx : List Frame}
    (hrep : repS h (rootPtr (plug (ST.node p Tl (ST.node c ca cb)) ctx))
      (plug (ST.node p Tl (ST.node c ca cb)) ctx))
    (hnod : (plug (ST.node p Tl (ST.node c ca cb)) ctx).inorder.Nodup) :
    (rotate h (c :: p :: frameIds ctx)).2 = p :: c :: frameIds ctx ∧
      repS (rotate h (c :: p :: frameIds ctx)).1
        (rootPtr (plug (ST.node c (ST.node p Tl ca) cb) ctx))
        (plug (ST.node c (ST.node p Tl ca) cb) ctx) := by
  have hfp := repS_plug_focus ctx hrep
  have hpl : (h p).left = rootPtr Tl := repS_root hfp.2.1
  have hpr : (h p).right = some c := repS_root hfp.2.2
  have hrep_ccab : repS h (some c) (ST.node c ca cb) := by
    have hx := hfp.2.2
    rwa [repS_root hx] at hx
  have hcl : (h c).left = rootPtr ca := repS_root hrep_ccab.2.1
  have hcr : (h c).right = rootPtr cb := repS_root hrep_ccab.2.2
  have hfn := plug_nodup_focus hnod
  have hparts := nodup_node_parts hfn
  have hmem_c : c ∈ (ST.node p Tl (ST.node c ca cb)).inorder := by
    simp [ST.inorder]
  have hmem_p : p ∈ (ST.node p Tl (ST.node c ca cb)).inorder := by
    simp [ST.inorder]
  have hcp : c ≠ p := by
    intro he
    exact hparts.2.2.2.1
      (he ▸ (by simp [ST.inorder] : c ∈ (ST.node c ca cb).inorder))
  have hside : get_side h p c = .R := by
    unfold get_side
    rw [hpr]
    simp
  cases ctx with
  | nil =>
    rw [show frameIds [] = [] from rfl]
    refine ⟨rotate_nil_snd h c p, ?_⟩
    rw [rotate_nil_fst h c p, hside]
    simp only [Side.flip]
    refine graft_rotated_rf (h := h) hrep hnod ?_ ?_ trivial ?_
    · constructor
      · rw [set_child_ne _ _ _ _ hcp, set_child_at_L, set_child_at_R]
        simp [get_child, hcr]
      · rw [set_child_ne _ _ _ _ hcp, set_child_at_L]
    · constructor
      · rw [set_child_at_R]
        simp [get_child, Side.flip, hcl]
      · rw [set_child_at_R, set_child_ne _ _ _ _ (Ne.symm hcp),
          set_child_ne _ _ _ _ (Ne.symm hcp)]
    · intro q hqc hqp _
      rw [set_child_ne _ _ _ _ hqp, set_child_ne _ _ _ _ hqc,
        set_child_ne _ _ _ _ hqc]
      exact ⟨rfl, rfl⟩
  | cons fr ctx2 =>
    have hdisj := plug_nodup_disjoint hnod
    have hcg0 : c ∉ offIds (fr :: ctx2) := hdisj c hmem_c
    have hpg0 : p ∉ offIds (fr :: ctx2) := hdisj p hmem_p
    cases fr with
    | lf g Trg =>
      have hgmem : g ∈ offIds (Frame.lf g Trg :: ctx2) := by simp [offIds]
      have hcg : c ≠ g := fun he => hcg0 (he ▸ hgmem)
      have hpg : p ≠ g := fun he => hpg0 (he ▸ hgmem)
      have hfg := repS_plug_focus ctx2
        (T := ST.node g (ST.node p Tl (ST.node c ca cb)) Trg) hrep
      have hgl : (h g).left = some p := repS_root hfg.2.1
      have hgr : (h g).right = rootPtr Trg := repS_root hfg.2.2
      have hgside : get_side h g p = .L := by
        unfold get_side
        rw [hgr]
        cases Trg with
        | nil => simp [rootPtr]
        | node y yl yr =>
          have hyp : y ≠ p := by
            intro he
            subst he
            exact hpg0 (by simp [offIds, ST.inorder])
          simp [rootPtr, hyp]
      rw [show frameIds (Frame.lf g Trg :: ctx2) = g :: frameIds ctx2
          from rfl]
      refine ⟨rotate_cons_snd h c p g (frameIds ctx2), ?_⟩
      rw [rotate_cons_fst h c p g (frameIds ctx2), hside, hgside]
      simp only [Side.flip]
      refine graft_rotated_rf (h := h) hrep hnod ?_ ?_ ?_ ?_
      · constructor
        · rw [set_child_ne _ _ _ _ hcp, set_child_at_L, set_child_at_R,
            set_child_ne _ _ _ _ hcg]
          simp [get_child, hcr]
        · rw [set_child_ne _ _ _ _ hcp, set_child_at_L]
      · constructor
        · rw [set_child_at_R]
          simp [get_child, Side.flip, set_child_ne _ _ _ _ hcg, hcl]
        · rw [set_child_at_R, set_child_ne _ _ _ _ (Ne.symm hcp),
            set_child_ne _ _ _ _ (Ne.symm hcp),
            set_child_ne _ _ _ _ hpg]
      · refine ⟨?_, ?_⟩
        · rw [set_child_ne _ _ _ _ (Ne.symm hpg),
            set_child_ne _ _ _ _ (Ne.symm hcg),
            set_child_ne _ _ _ _ (Ne.symm hcg), set_child_at_L]
          rfl
        · rw [set_child_ne _ _ _ _ (Ne.symm hpg),
            set_child_ne _ _ _ _ (Ne.symm hcg),
            set_child_ne _ _ _ _ (Ne.symm hcg), set_child_at_L]
      · intro q hqc hqp hqg
        have hqg2 : q ≠ g := by
          intro he
          exact hqg (by rw [he]; rfl)
        rw [set_child_ne _ _ _ _ hqp, set_child_ne _ _ _ _ hqc,
          set_child_ne _ _ _ _ hqc, set_child_ne _ _ _ _ hqg2]
        exact ⟨rfl, rfl⟩
    | rf g Tlg =>
      have hgmem : g ∈ offIds (Frame.rf g Tlg :: ctx2) := by simp [offIds]
      have hcg : c ≠ g := fun he => hcg0 (he ▸ hgmem)
      have hpg : p ≠ g := fun he => hpg0 (he ▸ hgmem)
      have hfg := repS_plug_focus ctx2
        (T := ST.node g Tlg (ST.node p Tl (ST.node c ca cb))) hrep
      have hgr : (h g).right = some p := repS_root hfg.2.2
      have hgside : get_side h g p = .R := by
        unfold get_side
        rw [hgr]
        simp
      rw [show frameIds (Frame.rf g Tlg :: ctx2) = g :: frameIds ctx2
          from rfl]
      refine ⟨rotate_cons_snd h c p g (frameIds ctx2), ?_⟩
      rw [rotate_cons_fst h c p g (frameIds ctx2), hside, hgside]
      simp only [Side.flip]
      refine graft_rotated_rf (h := h) hrep hnod ?_ ?_ ?_ ?_
      · constructor
        · rw [set_child_ne _ _ _ _ hcp, set_child_at_L, set_child_at_R,
            set_child_ne _ _ _ _ hcg]
          simp [get_child, hcr]
        · rw [set_child_ne _ _ _ _ hcp, set_child_at_L]
      · constructor
        · rw [set_child_at_R]
          simp [get_child, Side.flip, set_child_ne _ _ _ _ hcg, hcl]
        · rw [set_child_at_R, set_child_ne _ _ _ _ (Ne.symm hcp),
            set_child_ne _ _ _ _ (Ne.symm hcp),
            set_child_ne _ _ _ _ hpg]
      · refine ⟨?_, ?_⟩
        · rw [set_child_ne _ _ _ _ (Ne.symm hpg),
            set_child_ne _ _ _ _ (Ne.symm hcg),
            set_child_ne _ _ _ _ (Ne.symm hcg), set_child_at_R]
          rfl
        · rw [set_child_ne _ _ _ _ (Ne.symm hpg),
            set_child_ne _ _ _ _ (Ne.symm hcg),
            set_child_ne _ _ _ _ (Ne.symm hcg), set_child_at_R]
      · intro q hqc hqp hqg
        have hqg2 : q ≠ g := by
          intro he
          exact hqg (by rw [he]; rfl)
        rw [set_child_ne _ _ _ _ hqp, set_child_ne _ _ _ _ hqc,
          set_child_ne _ _ _ _ hqc, set_child_ne _ _ _ _ hqg2]
        exact ⟨rfl, rfl⟩

end RBC

namespace RBC

theorem rotate_inorder_lf (c p : Ptr) (a b Tr : ST) (ctx : List Frame) :
    (plug (ST.node c a (ST.node p b Tr)) ctx).inorder =
      (plug (ST.node p (ST.node c a b) Tr) ctx).inorder := by
  simp [plug_inorder, ST.inorder]

theorem rotate_inorder_rf (c p : Ptr) (ca cb Tl : ST) (ctx : List Frame) :
    (plug (ST.node c (ST.node p Tl ca) cb) ctx).inorder =
      (plug (ST.node p Tl (ST.node c ca cb)) ctx).inorder := by
  simp [plug_inorder, ST.inorder]

theorem rotate_black_all (h : Heap) (stk : List Ptr) (q : Ptr) :
    ((rotate h stk).1 q).black = (h q).black := by
  match stk with
  | [] => rfl
  | [x] => rfl
  | c :: p :: [] =>
    rw [rotate_nil_fst]
    simp [set_child_black]
  | c :: p :: g :: r2 =>
    rw [rotate_cons_fst]
    simp [set_child_black]

theorem rotate_frame (h : Heap) (c p : Ptr) (rest : List Ptr) (q : Ptr)
    (hqc : q ≠ c) (hqp : q ≠ p) (hqg : ∀ g ∈ rest.head?, q ≠ g) :
    (rotate h (c :: p :: rest)).1 q = h q := by
  match rest with
  | [] =>
    rw [rotate_nil_fst, set_child_ne _ _ _ _ hqp, set_child_ne _ _ _ _ hqc,
      set_child_ne _ _ _ _ hqc]
  | g :: r2 =>
    have hg : q ≠ g := hqg g rfl
    rw [rotate_cons_fst, set_child_ne _ _ _ _ hqp, set_child_ne _ _ _ _ hqc,
      set_child_ne _ _ _ _ hqc, set_child_ne _ _ _ _ hg]

/-- C7: a rotation on a path stack of depth at least two (i) never
changes any node's color bit, (ii) leaves every node other than the
rotated child, its parent and the grandparent (the head of the
remaining stack) entirely untouched, (iii) swaps the two top stack
entries, and (iv) when the stack is a real path in a represented tree
(the parent's subtree has the child on one side), the rotated heap
represents a tree with the same in-order id sequence. -/
theorem rotate_rotates_locally_preserving_inorder (h : Heap) (c p : Ptr)
    (rest : List Ptr) :
    (∀ q, ((rotate h (c :: p :: rest)).1 q).black = (h q).black) ∧
    (∀ q, q ≠ c → q ≠ p → (∀ g ∈ rest.head?, q ≠ g) →
      (rotate h (c :: p :: rest)).1 q = h q) ∧
    (rotate h (c :: p :: rest)).2 = p :: c :: rest ∧
    (∀ (Tl Tr : ST) (ctx : List Frame), rest = frameIds ctx →
      repS h (rootPtr (plug (ST.node p Tl Tr) ctx))
        (plug (ST.node p Tl Tr) ctx) →
      (plug (ST.node p Tl Tr) ctx).inorder.Nodup →
      rootPtr Tl = some c ∨ rootPtr Tr = some c →
      ∃ T2 : ST,
        repS (rotate h (c :: p :: rest)).1 (rootPtr (plug T2 ctx))
          (plug T2 ctx) ∧
        (plug T2 ctx).inorder = (plug (ST.node p Tl Tr) ctx).inorder) := by
  refine ⟨rotate_black_all h _, rotate_frame h c p rest, ?_, ?_⟩
  · cases rest <;> rfl
  · intro Tl Tr ctx hrest hrep hnod hc
    subst hrest
    rcases hc with hc | hc
    · match Tl, hc with
      | .node c a b, rfl =>
        refine ⟨ST.node c a (ST.node p b Tr), (rotate_spec_lf hrep hnod).2, ?_⟩
        exact rotate_inorder_lf c p a b Tr ctx
    · match Tr, hc with
      | .node c ca cb, rfl =>
        refine ⟨ST.node c (ST.node p Tl ca) cb, (rotate_spec_rf hrep hnod).2, ?_⟩
        exact rotate_inorder_rf c p ca cb Tl ctx

/-- C7 (witness): rotating the concrete two-node path (child 0 under
root 1) preserves colors and yields a heap representing the rotated
tree with the same in-order sequence. -/
theorem rotate_rotates_locally_preserving_inorder_witness :
    (((rotate (fun _ => { left := none, right := none, black := false })
        [0, 1]).1 0).black = false) ∧
    (∃ T2 : ST,
      repS (rotate (fun p =>
          if p = 1 then { left := some 0, right := none, black := true }
          else { left := none, right := none, black := false }) [0, 1]).1
        (rootPtr (plug T2 [])) (plug T2 []) ∧
      (plug T2 []).inorder =
        (plug (ST.node 1 (ST.node 0 .nil .nil) .nil) []).inorder) := by
  constructor
  · exact (rotate_rotates_locally_preserving_inorder
      (fun _ => { left := none, right := none, black := false }) 0 1 []).1 0
  · exact (rotate_rotates_locally_preserving_inorder _ 0 1 []).2.2.2
      (ST.node 0 .nil .nil) .nil [] rfl (by decide) (by decide) (Or.inl rfl)

end RBC

namespace RBC

/-- The comparator contract of `rbtree.h`: a strict weak order.
`neg_tr` (negative transitivity) is the standard equivalent of
transitivity of incomparability. -/
structure SWO (cmp : Ptr → Ptr → Bool) : Prop where
  irrefl : ∀ a, cmp a a = false
  tr : ∀ ⦃a b c⦄, cmp a b = true → cmp b c = true → cmp a c = true
  neg_tr : ∀ ⦃a b c⦄, cmp a b = false → cmp b c = false → cmp a c = false

theorem SWO.asymm {cmp : Ptr → Ptr → Bool} (hs : SWO cmp) {a b : Ptr}
    (hab : cmp a b = true) : cmp b a = false := by
  by_contra hc
  have hba : cmp b a = true := by
    cases hba : cmp b a with
    | false => exact absurd hba hc
    | true => rfl
  have := hs.tr hab hba
  rw [hs.irrefl] at this
  exact Bool.false_ne_true this

theorem SWO.lt_of_lt_of_nlt {cmp : Ptr → Ptr → Bool} (hs : SWO cmp)
    {a b c : Ptr} (hab : cmp a b = true) (hcb : cmp c b = false) :
    cmp a c = true := by
  cases hac : cmp a c with
  | true => rfl
  | false => exact absurd (hs.neg_tr hac hcb) (by simp [hab])

/-- Non-decreasing with respect to the comparator: no later element
strictly precedes an earlier one (the in-order discipline the tree
maintains, equal elements permitted). -/
def Asc (cmp : Ptr → Ptr → Bool) (l : List Ptr) : Prop :=
  l.Pairwise (fun a b => cmp b a = false)

/-- Height of a shape. -/
def ST.ht : ST → Nat
  | .nil => 0
  | .node _ l r => max l.ht r.ht + 1

theorem ST.ht_le_inorder_length : ∀ T : ST, T.ht ≤ T.inorder.length := by
  intro T
  induction T with
  | nil => simp [ST.ht, ST.inorder]
  | node x l r ihl ihr =>
    simp only [ST.ht, ST.inorder, List.length_append, List.length_cons]
    omega

theorem Asc.node_parts {cmp : Ptr → Ptr → Bool} {x : Ptr} {l r : ST}
    (hA : Asc cmp (ST.node x l r).inorder) :
    (∀ y ∈ l.inorder, cmp x y = false) ∧
      (∀ z ∈ r.inorder, cmp z x = false) ∧
      Asc cmp l.inorder ∧ Asc cmp r.inorder := by
  unfold Asc at hA
  simp only [ST.inorder] at hA
  have h1 := List.pairwise_append.mp hA
  refine ⟨?_, ?_, h1.1, (List.pairwise_cons.mp h1.2.1).2⟩
  · intro y hy
    exact h1.2.2 y hy x (by simp)
  · intro z hz
    exact List.rel_of_pairwise_cons h1.2.1 hz

theorem mem_plug_focus {x : Ptr} {l r : ST} {ctx : List Frame} :
    x ∈ (plug (ST.node x l r) ctx).inorder := by
  rw [plug_inorder]
  simp [ST.inorder]

/-- The search descent of `find_and_stack`: starting from a focus on a
represented, duplicate-free, in-order-sorted tree, with every id left
of the focus known not-after the probe and every id right of it known
after, the loop ends on a node whose comparator-chosen child slot is
NULL, with the same whole tree and the two order invariants extended. -/
theorem fas_go_path {h : Heap} {cmp : Ptr → Ptr → Bool} {node : Ptr} {TT : ST}
    (hswo : SWO cmp)
    (hsorted : Asc cmp TT.inorder)
    (hfresh : node ∉ TT.inorder)
    (hrep : repS h (rootPtr TT) TT) :
    ∀ (fuel : Nat) (x : Ptr) (l r : ST) (ctx : List Frame),
      plug (ST.node x l r) ctx = TT →
      (ST.node x l r).ht ≤ fuel + 1 →
      (∀ y ∈ ctxL ctx, cmp node y = false) →
      (∀ z ∈ ctxR ctx, cmp node z = true) →
      ∃ (x' : Ptr) (l' r' : ST) (ctx' : List Frame),
        fas_go h cmp node (x :: frameIds ctx) fuel = x' :: frameIds ctx' ∧
        plug (ST.node x' l' r') ctx' = TT ∧
        get_child h x' (if cmp node x' then Side.L else Side.R) = none ∧
        (if cmp node x' then l' else r') = ST.nil ∧
        (∀ y ∈ ctxL ctx', cmp node y = false) ∧
        (∀ z ∈ ctxR ctx', cmp node z = true) := by
  intro fuel
  induction fuel with
  | zero =>
    intro x l r ctx hplug hht hL hR
    have hlr : l = ST.nil ∧ r = ST.nil := by
      constructor
      · cases l with
        | nil => rfl
        | node y yl yr => simp [ST.ht] at hht
      · cases r with
        | nil => rfl
        | node y yl yr => simp [ST.ht] at hht
    obtain ⟨hl, hr⟩ := hlr
    subst hl hr
    have hfoc : repS h (some x) (ST.node x ST.nil ST.nil) :=
      repS_plug_focus ctx (hplug ▸ hrep)
    have hxn : x ≠ node := fun he => hfresh (he ▸ hplug ▸ mem_plug_focus)
    have hnone : get_child h x (if cmp node x then Side.L else Side.R) =
        none := by
      cases hc : cmp node x <;>
        simp [get_child, repS_root hfoc.2.1, repS_root hfoc.2.2, rootPtr]
    refine ⟨x, ST.nil, ST.nil, ctx, ?_, hplug, hnone, by cases cmp node x <;>
      rfl, hL, hR⟩
    unfold fas_go
    simp [hxn, hnone]
  | succ fuel ih =>
    intro x l r ctx hplug hht hL hR
    have hfoc : repS h (some x) (ST.node x l r) :=
      repS_plug_focus ctx (hplug ▸ hrep)
    have hxn : x ≠ node := fun he => hfresh (he ▸ hplug ▸ mem_plug_focus)
    have hfocAsc : Asc cmp (ST.node x l r).inorder := by
      have hsub : (ST.node x l r).inorder.Sublist TT.inorder := by
        rw [← hplug, plug_inorder, List.append_assoc]
        exact ((ST.node x l r).inorder.sublist_append_left (ctxR ctx)).trans
          (List.sublist_append_right (ctxL ctx) _)
      exact hsorted.sublist hsub
    have hparts := Asc.node_parts hfocAsc
    cases hc : cmp node x with
    | true =>
      cases hl : l with
      | nil =>
        have hnone : get_child h x Side.L = none := by
          have hx := repS_root hfoc.2.1
          simp [get_child, hl ▸ hx, rootPtr]
        refine ⟨x, ST.nil, r, ctx, ?_, hl ▸ hplug, by simp [hc, hnone],
          by simp [hc], hL, hR⟩
        unfold fas_go
        simp [hxn, hc, hnone]
      | node y a b =>
        subst hl
        have hchild : get_child h x Side.L = some y := by
          have hx := repS_root hfoc.2.1
          simp [get_child, hx, rootPtr]
        have hplug2 : plug (ST.node y a b) (Frame.lf x r :: ctx) = TT := by
          simpa [plug] using hplug
        have hht2 : (ST.node y a b).ht ≤ fuel + 1 := by
          simp only [ST.ht] at hht ⊢
          omega
        have hR2 : ∀ z ∈ ctxR (Frame.lf x r :: ctx), cmp node z = true := by
          intro z hz
          simp only [ctxR, List.cons_append, List.mem_cons,
            List.mem_append] at hz
          rcases hz with hz | hz | hz
          · exact hz ▸ hc
          · exact hswo.lt_of_lt_of_nlt hc (hparts.2.1 z hz)
          · exact hR z hz
        have hL2 : ∀ y2 ∈ ctxL (Frame.lf x r :: ctx), cmp node y2 = false := by
          intro y2 hy2
          exact hL y2 hy2
        have hstep := ih y a b (Frame.lf x r :: ctx) hplug2 hht2 hL2 hR2
        obtain ⟨x', l', r', ctx', hgo, hrest⟩ := hstep
        refine ⟨x', l', r', ctx', ?_, hrest⟩
        rw [← hgo]
        conv =>
          lhs
          unfold fas_go
        simp [hxn, hc, hchild, frameIds]
    | false =>
      cases hr : r with
      | nil =>
        have hnone : get_child h x Side.R = none := by
          have hx := repS_root hfoc.2.2
          simp [get_child, hr ▸ hx, rootPtr]
        refine ⟨x, l, ST.nil, ctx, ?_, hr ▸ hplug, by simp [hc, hnone],
          by simp [hc], hL, hR⟩
        unfold fas_go
        simp [hxn, hc, hnone]
      | node y a b =>
        subst hr
        have hchild : get_child h x Side.R = some y := by
          have hx := repS_root hfoc.2.2
          simp [get_child, hx, rootPtr]
        have hplug2 : plug (ST.node y a b) (Frame.rf x l :: ctx) = TT := by
          simpa [plug] using hplug
        have hht2 : (ST.node y a b).ht ≤ fuel + 1 := by
          simp only [ST.ht] at hht ⊢
          omega
        have hL2 : ∀ y2 ∈ ctxL (Frame.rf x l :: ctx),
            cmp node y2 = false := by
          intro y2 hy2
          simp only [ctxL, List.mem_append, List.mem_singleton] at hy2
          rcases hy2 with (hy2 | hy2) | hy2
          · exact hL y2 hy2
          · exact hswo.neg_tr hc (hparts.1 y2 hy2)
          · exact hy2 ▸ hc
        have hR2 : ∀ z ∈ ctxR (Frame.rf x l :: ctx), cmp node z = true := by
          intro z hz
          exact hR z hz
        have hstep := ih y a b (Frame.rf x l :: ctx) hplug2 hht2 hL2 hR2
        obtain ⟨x', l', r', ctx', hgo, hrest⟩ := hstep
        refine ⟨x', l', r', ctx', ?_, hrest⟩
        rw [← hgo]
        conv =>
          lhs
          unfold fas_go
        simp [hxn, hc, hchild, frameIds]

end RBC

namespace RBC

/-- Frame id. -/
def Frame.fid : Frame → Ptr
  | .lf p _ => p
  | .rf p _ => p

theorem frameIds_subset_offIds : ∀ {ctx : List Frame} {q : Ptr},
    q ∈ frameIds ctx → q ∈ offIds ctx := by
  intro ctx
  induction ctx with
  | nil => intro q hq; simp [frameIds] at hq
  | cons fr ctx ih =>
    intro q hq
    cases fr with
    | lf p Tr =>
      simp only [frameIds, List.mem_cons] at hq
      rcases hq with hq | hq
      · simp [offIds, hq]
      · simp [offIds, ih hq]
    | rf p Tl =>
      simp only [frameIds, List.mem_cons] at hq
      rcases hq with hq | hq
      · simp [offIds, hq]
      · simp [offIds, ih hq]

theorem plug_rootPtr : ∀ (ctx : List Frame) (x : Ptr) (l r : ST),
    rootPtr (plug (ST.node x l r) ctx) =
      some ((x :: frameIds ctx).getLastD x) := by
  intro ctx
  induction ctx with
  | nil => intro x l r; simp [plug, frameIds, rootPtr]
  | cons fr ctx ih =>
    intro x l r
    cases fr with
    | lf p Tr =>
      simp only [plug, frameIds]
      rw [ih p (ST.node x l r) Tr]
      simp only [List.getLastD_cons]
    | rf p Tl =>
      simp only [plug, frameIds]
      rw [ih p Tl (ST.node x l r)]
      simp only [List.getLastD_cons]

/-- Frame orientation as a side. -/
def Frame.fside : Frame → Side
  | .lf _ _ => .L
  | .rf _ _ => .R

/-- With the focus hanging under frame `fr`, `get_side` of the frame id
and the focus root recomputes the frame's orientation. -/
theorem get_side_of_frame {h : Heap} {x : Ptr} {l r : ST} {fr : Frame}
    {ctx : List Frame}
    (hrep : repS h (rootPtr (plug (ST.node x l r) (fr :: ctx)))
      (plug (ST.node x l r) (fr :: ctx)))
    (hnod : (plug (ST.node x l r) (fr :: ctx)).inorder.Nodup) :
    get_side h fr.fid x = fr.fside := by
  cases fr with
  | lf p Tr =>
    have hfp : repS h (some p) (ST.node p (ST.node x l r) Tr) := by
      have := repS_plug_focus ctx
        (T := ST.node p (ST.node x l r) Tr) (by simpa [plug] using hrep)
      exact this
    have hpr : (h p).right = rootPtr Tr := repS_root hfp.2.2
    have hparts := nodup_node_parts
      (plug_nodup_focus (T := ST.node p (ST.node x l r) Tr)
        (by simpa [plug] using hnod))
    simp only [Frame.fid, Frame.fside, get_side, hpr]
    cases Tr with
    | nil => simp [rootPtr]
    | node y yl yr =>
      have hyx : y ≠ x := by
        intro he
        subst he
        exact hparts.2.2.2.2 y (by simp [ST.inorder]) (by simp [ST.inorder])
      simp [rootPtr, hyx]
  | rf p Tl =>
    have hfp : repS h (some p) (ST.node p Tl (ST.node x l r)) := by
      have := repS_plug_focus ctx
        (T := ST.node p Tl (ST.node x l r)) (by simpa [plug] using hrep)
      exact this
    have hpr : (h p).right = some x := repS_root hfp.2.2
    simp [Frame.fid, Frame.fside, get_side, hpr]

theorem set_color_inorder_pres {h : Heap} {n : Ptr} {b : Bool} {r0 : Option Ptr}
    {T : ST} (hr : repS h r0 T) : repS (set_color h n b) r0 T :=
  repS_set_color hr

end RBC

namespace RBC

theorem getLastD_of_ne_nil {L : List Ptr} (hL : L ≠ []) (d1 d2 : Ptr) :
    L.getLastD d1 = L.getLastD d2 := by
  cases L with
  | nil => exact absurd rfl hL
  | cons a t => rw [List.getLastD_cons, List.getLastD_cons]

theorem getLastD_mem {L : List Ptr} (hL : L ≠ []) (d : Ptr) :
    L.getLastD d ∈ L := by
  cases L with
  | nil => exact absurd rfl hL
  | cons a t =>
    rw [List.getLastD_cons]
    exact List.getLastD_mem_cons t a

theorem frameIds_ne_nil {ctx : List Frame} (hc : ctx ≠ []) :
    frameIds ctx ≠ [] := by
  cases ctx with
  | nil => exact absurd rfl hc
  | cons fr t => cases fr <;> simp [frameIds]

/-- The tail of `fix_case2` (`rotate(stack, stacksz-1)` plus the two
recolorings): from a represented focus `c2` hanging under frame `f2`,
produce the rotated heap, the rotated tree and the final `stack[0]`,
which is black. -/
theorem fix_case2_finish {h1 : Heap} {c2 : Ptr} {A2 B2 : ST} {f2 : Frame}
    {ctx3 : List Frame} (top : Ptr)
    (hrep1 : repS h1 (rootPtr (plug (ST.node c2 A2 B2) (f2 :: ctx3)))
      (plug (ST.node c2 A2 B2) (f2 :: ctx3)))
    (hnod1 : (plug (ST.node c2 A2 B2) (f2 :: ctx3)).inorder.Nodup)
    (hblack : ∀ rt0, ctx3 ≠ [] →
      rootPtr (plug (ST.node c2 A2 B2) (f2 :: ctx3)) = some rt0 →
      (h1 rt0).black = true) :
    ∃ (h2 : Heap) (y z : Ptr) (t2 : List Ptr) (T2 : ST),
      rotate h1 (c2 :: f2.fid :: frameIds ctx3) = (h2, y :: z :: t2) ∧
      repS (set_red (set_black h2 z) y)
        (some ((top :: y :: z :: t2).getLastD top)) T2 ∧
      T2.inorder = (plug (ST.node c2 A2 B2) (f2 :: ctx3)).inorder ∧
      ((set_red (set_black h2 z) y)
        ((top :: y :: z :: t2).getLastD top)).black = true := by
  have hrtval : ∀ (g : Ptr),
      (top :: g :: c2 :: frameIds ctx3).getLastD top =
        (frameIds ctx3).getLastD c2 := by
    intro g
    simp only [List.getLastD_cons]
  cases f2 with
  | lf g Trg =>
    have hrepg : repS h1 (rootPtr (plug (ST.node g (ST.node c2 A2 B2) Trg)
        ctx3)) (plug (ST.node g (ST.node c2 A2 B2) Trg) ctx3) := by
      simpa [plug] using hrep1
    have hnodg : (plug (ST.node g (ST.node c2 A2 B2) Trg)
        ctx3).inorder.Nodup := by
      simpa [plug] using hnod1
    have hrot := rotate_spec_lf hrepg hnodg
    rcases hR : rotate h1 (c2 :: g :: frameIds ctx3) with ⟨h2v, stk2⟩
    rw [hR] at hrot
    have hstk2 : stk2 = g :: c2 :: frameIds ctx3 := hrot.1
    subst hstk2
    have hparts := nodup_node_parts (plug_nodup_focus hnodg)
    have hc2g : c2 ≠ g := by
      intro he
      exact hparts.2.2.1
        (he ▸ (by simp [ST.inorder] : c2 ∈ (ST.node c2 A2 B2).inorder))
    have hrep2 : repS (set_red (set_black h2v c2) g)
        (rootPtr (plug (ST.node c2 A2 (ST.node g B2 Trg)) ctx3))
        (plug (ST.node c2 A2 (ST.node g B2 Trg)) ctx3) :=
      repS_set_color (repS_set_color hrot.2)
    have hroot2 : rootPtr (plug (ST.node c2 A2 (ST.node g B2 Trg)) ctx3) =
        some ((frameIds ctx3).getLastD c2) := by
      rw [plug_rootPtr, List.getLastD_cons]
    refine ⟨h2v, g, c2, frameIds ctx3,
      plug (ST.node c2 A2 (ST.node g B2 Trg)) ctx3, hR, ?_, ?_, ?_⟩
    · rw [hrtval g, ← hroot2]
      exact hrep2
    · rw [rotate_inorder_lf]
      simp [plug]
    · rw [hrtval g]
      simp only [set_red, set_black]
      cases hctx3 : ctx3 with
      | nil =>
        simp only [hctx3, frameIds, List.getLastD]
        rw [set_color_ne _ _ _ hc2g, set_color_at]
      | cons fr4 ctx4 =>
        have hLne : frameIds ctx3 ≠ [] := frameIds_ne_nil (by simp [hctx3])
        rw [← hctx3]
        have hrtmem : (frameIds ctx3).getLastD c2 ∈ offIds ctx3 :=
          frameIds_subset_offIds (getLastD_mem hLne c2)
        have hdisj := plug_nodup_disjoint hnodg
        have hrtc2 : (frameIds ctx3).getLastD c2 ≠ c2 := by
          intro he
          exact hdisj c2 (by simp [ST.inorder]) (he ▸ hrtmem)
        have hrtg : (frameIds ctx3).getLastD c2 ≠ g := by
          intro he
          exact hdisj g (by simp [ST.inorder]) (he ▸ hrtmem)
        rw [set_color_ne _ _ _ hrtg, set_color_ne _ _ _ hrtc2]
        have hb1 : (h2v ((frameIds ctx3).getLastD c2)).black =
            (h1 ((frameIds ctx3).getLastD c2)).black := by
          have hba := rotate_black_all h1 (c2 :: g :: frameIds ctx3)
            ((frameIds ctx3).getLastD c2)
          rwa [hR] at hba
        rw [hb1]
        refine hblack _ (by simp [hctx3]) ?_
        rw [plug_rootPtr (Frame.lf g Trg :: ctx3) c2 A2 B2]
        simp only [frameIds, List.getLastD_cons]
        rw [getLastD_of_ne_nil hLne g c2]
  | rf g Tlg =>
    have hrepg : repS h1 (rootPtr (plug (ST.node g Tlg (ST.node c2 A2 B2))
        ctx3)) (plug (ST.node g Tlg (ST.node c2 A2 B2)) ctx3) := by
      simpa [plug] using hrep1
    have hnodg : (plug (ST.node g Tlg (ST.node c2 A2 B2))
        ctx3).inorder.Nodup := by
      simpa [plug] using hnod1
    have hrot := rotate_spec_rf hrepg hnodg
    rcases hR : rotate h1 (c2 :: g :: frameIds ctx3) with ⟨h2v, stk2⟩
    rw [hR] at hrot
    have hstk2 : stk2 = g :: c2 :: frameIds ctx3 := hrot.1
    subst hstk2
    have hparts := nodup_node_parts (plug_nodup_focus hnodg)
    have hc2g : c2 ≠ g := by
      intro he
      exact hparts.2.2.2.1
        (he ▸ (by simp [ST.inorder] : c2 ∈ (ST.node c2 A2 B2).inorder))
    have hrep2 : repS (set_red (set_black h2v c2) g)
        (rootPtr (plug (ST.node c2 (ST.node g Tlg A2) B2) ctx3))
        (plug (ST.node c2 (ST.node g Tlg A2) B2) ctx3) :=
      repS_set_color (repS_set_color hrot.2)
    have hroot2 : rootPtr (plug (ST.node c2 (ST.node g Tlg A2) B2) ctx3) =
        some ((frameIds ctx3).getLastD c2) := by
      rw [plug_rootPtr, List.getLastD_cons]
    refine ⟨h2v, g, c2, frameIds ctx3,
      plug (ST.node c2 (ST.node g Tlg A2) B2) ctx3, hR, ?_, ?_, ?_⟩
    · rw [hrtval g, ← hroot2]
      exact hrep2
    · rw [rotate_inorder_rf]
      simp [plug]
    · rw [hrtval g]
      simp only [set_red, set_black]
      cases hctx3 : ctx3 with
      | nil =>
        simp only [hctx3, frameIds, List.getLastD]
        rw [set_color_ne _ _ _ hc2g, set_color_at]
      | cons fr4 ctx4 =>
        have hLne : frameIds ctx3 ≠ [] := frameIds_ne_nil (by simp [hctx3])
        rw [← hctx3]
        have hrtmem : (frameIds ctx3).getLastD c2 ∈ offIds ctx3 :=
          frameIds_subset_offIds (getLastD_mem hLne c2)
        have hdisj := plug_nodup_disjoint hnodg
        have hrtc2 : (frameIds ctx3).getLastD c2 ≠ c2 := by
          intro he
          exact hdisj c2 (by simp [ST.inorder]) (he ▸ hrtmem)
        have hrtg : (frameIds ctx3).getLastD c2 ≠ g := by
          intro he
          exact hdisj g (by simp [ST.inorder]) (he ▸ hrtmem)
        rw [set_color_ne _ _ _ hrtg, set_color_ne _ _ _ hrtc2]
        have hb1 : (h2v ((frameIds ctx3).getLastD c2)).black =
            (h1 ((frameIds ctx3).getLastD c2)).black := by
          have hba := rotate_black_all h1 (c2 :: g :: frameIds ctx3)
            ((frameIds ctx3).getLastD c2)
          rwa [hR] at hba
        rw [hb1]
        refine hblack _ (by simp [hctx3]) ?_
        rw [plug_rootPtr (Frame.rf g Tlg :: ctx3) c2 A2 B2]
        simp only [frameIds, List.getLastD_cons]
        rw [getLastD_of_ne_nil hLne g c2]

end RBC


namespace RBC

/-- Computation rule for `fix_case2` when the parent is already on the
same side as the node (no alignment rotation; only the grandparent
rotation runs). -/
theorem fix_case2_noalign (h : Heap) (node parent : Ptr) (rest : List Ptr)
    (side : Side) (hps : get_side h parent node = side)
    {h2 : Heap} {y z : Ptr} {t2 : List Ptr}
    (hR : rotate h (parent :: rest) = (h2, y :: z :: t2)) :
    fix_case2 h node parent rest side =
      some (set_red (set_black h2 z) y,
        (node :: y :: z :: t2).getLastD node) := by
  simp only [fix_case2]
  rw [hps, if_neg (by simp)]
  dsimp only
  rw [hR]

/-- Computation rule for `fix_case2` when the parent is on the opposite
side (alignment rotation first, then the grandparent rotation). -/
theorem fix_case2_align (h : Heap) (node parent : Ptr) (rest : List Ptr)
    (side : Side) (hps : get_side h parent node ≠ side)
    {h1 : Heap} {top : Ptr} {tail : List Ptr}
    (hR1 : rotate h (node :: parent :: rest) = (h1, top :: tail))
    {h2 : Heap} {y z : Ptr} {t2 : List Ptr}
    (hR2 : rotate h1 tail = (h2, y :: z :: t2)) :
    fix_case2 h node parent rest side =
      some (set_red (set_black h2 z) y,
        (top :: y :: z :: t2).getLastD top) := by
  simp only [fix_case2]
  rw [if_pos hps, hR1]
  dsimp only
  rw [hR2]

end RBC

namespace RBC

/-- Specification of `fix_case2` (black aunt): under representation and
no-duplicate hypotheses, the call succeeds, the returned `stack[0]`
represents a tree with the same in-order sequence, and that root is
black. -/
theorem fix_case2_spec (f1 f2 : Frame) (ctx3 : List Frame) (h : Heap)
    (x : Ptr) (l r : ST)
    (hrep : repS h (rootPtr (plug (ST.node x l r) (f1 :: f2 :: ctx3)))
      (plug (ST.node x l r) (f1 :: f2 :: ctx3)))
    (hnod : (plug (ST.node x l r) (f1 :: f2 :: ctx3)).inorder.Nodup)
    (hrtb : ∀ rt0,
      rootPtr (plug (ST.node x l r) (f1 :: f2 :: ctx3)) = some rt0 →
      (h rt0).black = true) :
    ∃ (h' : Heap) (rt : Ptr) (T' : ST),
      fix_case2 h x f1.fid (f2.fid :: frameIds ctx3)
          (get_side h f2.fid f1.fid) = some (h', rt) ∧
      repS h' (some rt) T' ∧
      T'.inorder = (plug (ST.node x l r) (f1 :: f2 :: ctx3)).inorder ∧
      (h' rt).black = true := by
  cases f1 with
  | lf p Tr1 =>
    have hps : get_side h p x = Side.L :=
      get_side_of_frame hrep hnod
    have hrepp : repS h (rootPtr (plug (ST.node p (ST.node x l r) Tr1)
        (f2 :: ctx3))) (plug (ST.node p (ST.node x l r) Tr1) (f2 :: ctx3)) :=
      by simpa [plug] using hrep
    have hnodp : (plug (ST.node p (ST.node x l r) Tr1)
        (f2 :: ctx3)).inorder.Nodup := by simpa [plug] using hnod
    have hblk : ∀ rt0, ctx3 ≠ [] →
        rootPtr (plug (ST.node p (ST.node x l r) Tr1) (f2 :: ctx3)) =
          some rt0 → (h rt0).black = true := by
      intro rt0 _ hr0
      exact hrtb rt0 (by simpa [plug] using hr0)
    cases f2 with
    | lf g Trg =>
      have hs : get_side h g p = Side.L := by
        simpa [Frame.fid, Frame.fside] using
          get_side_of_frame hrepp hnodp
      obtain ⟨h2, y, z, t2, T2, hRq, hrepF, hinoF, hblF⟩ :=
        fix_case2_finish x hrepp hnodp hblk
      simp only [Frame.fid] at hRq
      refine ⟨set_red (set_black h2 z) y, (x :: y :: z :: t2).getLastD x,
        T2, ?_, hrepF, by simpa [plug] using hinoF, hblF⟩
      simp only [Frame.fid]
      exact fix_case2_noalign h x p _ _ (by rw [hps, hs]) hRq
    | rf g Tlg =>
      have hs : get_side h g p = Side.R := by
        simpa [Frame.fid, Frame.fside] using
          get_side_of_frame hrepp hnodp
      have hrot := rotate_spec_lf hrepp hnodp
      rcases hR1 : rotate h (x :: p :: frameIds (Frame.rf g Tlg :: ctx3))
        with ⟨h1v, stk1⟩
      rw [hR1] at hrot
      have hstk1 : stk1 = p :: x :: frameIds (Frame.rf g Tlg :: ctx3) :=
        hrot.1
      subst hstk1
      have hrep1 : repS h1v
          (rootPtr (plug (ST.node x l (ST.node p r Tr1))
            (Frame.rf g Tlg :: ctx3)))
          (plug (ST.node x l (ST.node p r Tr1)) (Frame.rf g Tlg :: ctx3)) :=
        hrot.2
      have hnod1 : (plug (ST.node x l (ST.node p r Tr1))
          (Frame.rf g Tlg :: ctx3)).inorder.Nodup := by
        rw [rotate_inorder_lf]
        exact by simpa [plug] using hnod
      have hblk1 : ∀ rt0, ctx3 ≠ [] →
          rootPtr (plug (ST.node x l (ST.node p r Tr1))
            (Frame.rf g Tlg :: ctx3)) = some rt0 →
          (h1v rt0).black = true := by
        intro rt0 _ hr0
        have hbeq : (h1v rt0).black = (h rt0).black := by
          have hba := rotate_black_all h
            (x :: p :: frameIds (Frame.rf g Tlg :: ctx3)) rt0
          rwa [hR1] at hba
        rw [hbeq]
        refine hrtb rt0 ?_
        rw [plug_rootPtr] at hr0 ⊢
        simp only [frameIds, List.getLastD_cons] at hr0 ⊢
        exact hr0
      obtain ⟨h2, y, z, t2, T2, hRq, hrepF, hinoF, hblF⟩ :=
        fix_case2_finish p hrep1 hnod1 hblk1
      simp only [Frame.fid] at hRq
      simp only [frameIds] at hR1 hRq
      refine ⟨set_red (set_black h2 z) y, (p :: y :: z :: t2).getLastD p,
        T2, ?_, hrepF, ?_, hblF⟩
      · simp only [Frame.fid]
        exact fix_case2_align h x p _ _ (by rw [hps, hs]; decide) hR1 hRq
      · rw [hinoF, rotate_inorder_lf]
        simp [plug]
  | rf p Tl1 =>
    have hps : get_side h p x = Side.R :=
      get_side_of_frame hrep hnod
    have hrepp : repS h (rootPtr (plug (ST.node p Tl1 (ST.node x l r))
        (f2 :: ctx3))) (plug (ST.node p Tl1 (ST.node x l r)) (f2 :: ctx3)) :=
      by simpa [plug] using hrep
    have hnodp : (plug (ST.node p Tl1 (ST.node x l r))
        (f2 :: ctx3)).inorder.Nodup := by simpa [plug] using hnod
    have hblk : ∀ rt0, ctx3 ≠ [] →
        rootPtr (plug (ST.node p Tl1 (ST.node x l r)) (f2 :: ctx3)) =
          some rt0 → (h rt0).black = true := by
      intro rt0 _ hr0
      exact hrtb rt0 (by simpa [plug] using hr0)
    cases f2 with
    | rf g Tlg =>
      have hs : get_side h g p = Side.R := by
        simpa [Frame.fid, Frame.fside] using
          get_side_of_frame hrepp hnodp
      obtain ⟨h2, y, z, t2, T2, hRq, hrepF, hinoF, hblF⟩ :=
        fix_case2_finish x hrepp hnodp hblk
      simp only [Frame.fid] at hRq
      refine ⟨set_red (set_black h2 z) y, (x :: y :: z :: t2).getLastD x,
        T2, ?_, hrepF, by simpa [plug] using hinoF, hblF⟩
      simp only [Frame.fid]
      exact fix_case2_noalign h x p _ _ (by rw [hps, hs]) hRq
    | lf g Trg =>
      have hs : get_side h g p = Side.L := by
        simpa [Frame.fid, Frame.fside] using
          get_side_of_frame hrepp hnodp
      have hrot := rotate_spec_rf hrepp hnodp
      rcases hR1 : rotate h (x :: p :: frameIds (Frame.lf g Trg :: ctx3))
        with ⟨h1v, stk1⟩
      rw [hR1] at hrot
      have hstk1 : stk1 = p :: x :: frameIds (Frame.lf g Trg :: ctx3) :=
        hrot.1
      subst hstk1
      have hrep1 : repS h1v
          (rootPtr (plug (ST.node x (ST.node p Tl1 l) r)
            (Frame.lf g Trg :: ctx3)))
          (plug (ST.node x (ST.node p Tl1 l) r) (Frame.lf g Trg :: ctx3)) :=
        hrot.2
      have hnod1 : (plug (ST.node x (ST.node p Tl1 l) r)
          (Frame.lf g Trg :: ctx3)).inorder.Nodup := by
        rw [rotate_inorder_rf]
        exact by simpa [plug] using hnod
      have hblk1 : ∀ rt0, ctx3 ≠ [] →
          rootPtr (plug (ST.node x (ST.node p Tl1 l) r)
            (Frame.lf g Trg :: ctx3)) = some rt0 →
          (h1v rt0).black = true := by
        intro rt0 _ hr0
        have hbeq : (h1v rt0).black = (h rt0).black := by
          have hba := rotate_black_all h
            (x :: p :: frameIds (Frame.lf g Trg :: ctx3)) rt0
          rwa [hR1] at hba
        rw [hbeq]
        refine hrtb rt0 ?_
        rw [plug_rootPtr] at hr0 ⊢
        simp only [frameIds, List.getLastD_cons] at hr0 ⊢
        exact hr0
      obtain ⟨h2, y, z, t2, T2, hRq, hrepF, hinoF, hblF⟩ :=
        fix_case2_finish p hrep1 hnod1 hblk1
      simp only [Frame.fid] at hRq
      simp only [frameIds] at hR1 hRq
      refine ⟨set_red (set_black h2 z) y, (p :: y :: z :: t2).getLastD p,
        T2, ?_, hrepF, ?_, hblF⟩
      · simp only [Frame.fid]
        exact fix_case2_align h x p _ _ (by rw [hps, hs]; decide) hR1 hRq
      · rw [hinoF, rotate_inorder_rf]
        simp [plug]

end RBC

namespace RBC

theorem frameIds_cons (fr : Frame) (ctx : List Frame) :
    frameIds (fr :: ctx) = fr.fid :: frameIds ctx := by
  cases fr <;> rfl

/-- Plugging one frame turns the focus into a node rooted at the
frame's id. -/
theorem frame_app_node (f1 : Frame) (X : ST) :
    ∃ l1 r1, ∀ rest, plug X (f1 :: rest) = plug (ST.node f1.fid l1 r1) rest := by
  cases f1 with
  | lf p Tr => exact ⟨X, Tr, fun rest => rfl⟩
  | rf p Tl => exact ⟨Tl, X, fun rest => rfl⟩

/-- Computation rule: a black parent ends the fixup loop at once. -/
theorem fix_extra_red_parent_black (h : Heap) (x p : Ptr) (rest : List Ptr)
    (hpb : is_black h p = true) :
    fix_extra_red h (x :: p :: rest) =
      some (h, (x :: p :: rest).getLastD x) := by
  unfold fix_extra_red
  simp [hpb]

/-- Computation rule for case 1 (red aunt): recolor and pop two
frames. -/
theorem fix_extra_red_case1 (h : Heap) (x p g : Ptr) (rest2 : List Ptr)
    (aunt : Ptr) (hpb : is_black h p = false)
    (hga : get_child h g (get_side h g p).flip = some aunt)
    (har : is_red h aunt = true) :
    fix_extra_red h (x :: p :: g :: rest2) =
      fix_extra_red (set_black (set_black (set_red h g) p) aunt)
        (g :: rest2) := by
  simp [fix_extra_red, hpb, hga, har]

/-- Computation rule for case 2 with no aunt. -/
theorem fix_extra_red_case2_none (h : Heap) (x p g : Ptr) (rest2 : List Ptr)
    (hpb : is_black h p = false)
    (hga : get_child h g (get_side h g p).flip = none) :
    fix_extra_red h (x :: p :: g :: rest2) =
      fix_case2 h x p (g :: rest2) (get_side h g p) := by
  simp [fix_extra_red, hpb, hga]

/-- Computation rule for case 2 with a black aunt. -/
theorem fix_extra_red_case2_black (h : Heap) (x p g : Ptr) (rest2 : List Ptr)
    (aunt : Ptr) (hpb : is_black h p = false)
    (hga : get_child h g (get_side h g p).flip = some aunt)
    (har : is_red h aunt = false) :
    fix_extra_red h (x :: p :: g :: rest2) =
      fix_case2 h x p (g :: rest2) (get_side h g p) := by
  simp [fix_extra_red, hpb, hga, har]

end RBC

namespace RBC

/-- Specification of the `fix_extra_red` loop: starting from a
represented focus whose stack is `x :: frameIds ctx`, with no duplicate
nodes and a black root (whenever the focus is not itself the root), the
loop terminates successfully with a heap and a new root representing a
tree with the same in-order sequence, and that root is black. -/
theorem fix_extra_red_spec (n : Nat) :
    ∀ (ctx : List Frame) (h : Heap) (x : Ptr) (l r : ST),
      ctx.length ≤ n →
      repS h (rootPtr (plug (ST.node x l r) ctx)) (plug (ST.node x l r) ctx) →
      (plug (ST.node x l r) ctx).inorder.Nodup →
      (ctx ≠ [] → ∀ rt0,
        rootPtr (plug (ST.node x l r) ctx) = some rt0 →
        (h rt0).black = true) →
      ∃ (h' : Heap) (rt : Ptr) (T' : ST),
        fix_extra_red h (x :: frameIds ctx) = some (h', rt) ∧
        repS h' (some rt) T' ∧
        T'.inorder = (plug (ST.node x l r) ctx).inorder ∧
        (h' rt).black = true := by
  induction n with
  | zero =>
    intro ctx h x l r hlen hrep hnod _
    have hc : ctx = [] := List.length_eq_zero.mp (Nat.le_zero.mp hlen)
    subst hc
    refine ⟨set_black h x, x, ST.node x l r, rfl, ?_, rfl, ?_⟩
    · exact repS_set_color hrep
    · simp [set_black, set_color]
  | succ n ih =>
    intro ctx h x l r hlen hrep hnod hrtb
    cases ctx with
    | nil =>
      refine ⟨set_black h x, x, ST.node x l r, rfl, ?_, rfl, ?_⟩
      · exact repS_set_color hrep
      · simp [set_black, set_color]
    | cons f1 ctx' =>
      have hrt_black :
          (h ((x :: frameIds (f1 :: ctx')).getLastD x)).black = true := by
        refine hrtb (by simp) _ ?_
        exact plug_rootPtr (f1 :: ctx') x l r
      cases hpb : is_black h f1.fid with
      | true =>
        refine ⟨h, (x :: frameIds (f1 :: ctx')).getLastD x,
          plug (ST.node x l r) (f1 :: ctx'), ?_, ?_, rfl, hrt_black⟩
        · rw [frameIds_cons]
          exact fix_extra_red_parent_black h x f1.fid _ hpb
        · have h2 := hrep
          rw [plug_rootPtr] at h2
          exact h2
      | false =>
        cases ctx' with
        | nil =>
          exfalso
          rw [frameIds_cons] at hrt_black
          simp only [frameIds] at hrt_black
          rw [List.getLastD_cons, List.getLastD_cons] at hrt_black
          have hb2 : (h f1.fid).black = true := hrt_black
          simp [is_black, hb2] at hpb
        | cons f2 ctx3 =>
          obtain ⟨l1, r1, hP⟩ := frame_app_node f1 (ST.node x l r)
          have hrepp : repS h
              (rootPtr (plug (ST.node f1.fid l1 r1) (f2 :: ctx3)))
              (plug (ST.node f1.fid l1 r1) (f2 :: ctx3)) := by
            rw [← hP]; exact hrep
          have hnodp : (plug (ST.node f1.fid l1 r1)
              (f2 :: ctx3)).inorder.Nodup := by
            rw [← hP]; exact hnod
          have hs : get_side h f2.fid f1.fid = f2.fside :=
            get_side_of_frame hrepp hnodp
          cases f2 with
          | lf g S =>
            have hs2 : get_side h g f1.fid = Side.L := hs
            have hG : repS h (some g)
                (ST.node g (ST.node f1.fid l1 r1) S) :=
              repS_plug_focus ctx3
                (T := ST.node g (ST.node f1.fid l1 r1) S) hrepp
            have haunt : (h g).right = rootPtr S := repS_root hG.2.2
            cases S with
            | nil =>
              have hga : get_child h g (get_side h g f1.fid).flip = none := by
                rw [hs2]
                simpa [get_child, Side.flip, rootPtr] using haunt
              obtain ⟨h', rt, T', hfix, hrep', hino', hblk'⟩ :=
                fix_case2_spec f1 (Frame.lf g ST.nil) ctx3 h x l r hrep hnod
                  (fun rt0 h0 => hrtb (by simp) rt0 h0)
              refine ⟨h', rt, T', ?_, hrep', hino', hblk'⟩
              rw [frameIds_cons, frameIds_cons]
              show fix_extra_red h (x :: f1.fid :: g :: frameIds ctx3) =
                some (h', rt)
              rw [fix_extra_red_case2_none h x f1.fid g (frameIds ctx3)
                hpb hga]
              exact hfix
            | node a aL aR =>
              have haunt2 : (h g).right = some a := by
                simpa [rootPtr] using haunt
              have hga : get_child h g (get_side h g f1.fid).flip =
                  some a := by
                rw [hs2]
                simpa [get_child, Side.flip] using haunt2
              cases hab : is_red h a with
              | false =>
                obtain ⟨h', rt, T', hfix, hrep', hino', hblk'⟩ :=
                  fix_case2_spec f1 (Frame.lf g (ST.node a aL aR)) ctx3 h
                    x l r hrep hnod (fun rt0 h0 => hrtb (by simp) rt0 h0)
                refine ⟨h', rt, T', ?_, hrep', hino', hblk'⟩
                rw [frameIds_cons, frameIds_cons]
                show fix_extra_red h (x :: f1.fid :: g :: frameIds ctx3) =
                  some (h', rt)
                rw [fix_extra_red_case2_black h x f1.fid g (frameIds ctx3)
                  a hpb hga hab]
                exact hfix
              | true =>
                have hrepG : repS h
                    (rootPtr (plug (ST.node g (ST.node f1.fid l1 r1)
                      (ST.node a aL aR)) ctx3))
                    (plug (ST.node g (ST.node f1.fid l1 r1)
                      (ST.node a aL aR)) ctx3) := hrepp
                have hnodG : (plug (ST.node g (ST.node f1.fid l1 r1)
                    (ST.node a aL aR)) ctx3).inorder.Nodup := hnodp
                have hrep3 : repS
                    (set_black (set_black (set_red h g) f1.fid) a)
                    (rootPtr (plug (ST.node g (ST.node f1.fid l1 r1)
                      (ST.node a aL aR)) ctx3))
                    (plug (ST.node g (ST.node f1.fid l1 r1)
                      (ST.node a aL aR)) ctx3) :=
                  repS_set_color (repS_set_color (repS_set_color hrepG))
                have hlen3 : ctx3.length ≤ n := by
                  simp only [List.length_cons] at hlen
                  omega
                have hrtb3 : ctx3 ≠ [] → ∀ rt0,
                    rootPtr (plug (ST.node g (ST.node f1.fid l1 r1)
                      (ST.node a aL aR)) ctx3) = some rt0 →
                    ((set_black (set_black (set_red h g) f1.fid) a)
                      rt0).black = true := by
                  intro hc3 rt0 hr0
                  rw [plug_rootPtr, List.getLastD_cons] at hr0
                  injection hr0 with hr0v
                  have hmem : rt0 ∈ frameIds ctx3 :=
                    hr0v ▸ getLastD_mem (frameIds_ne_nil hc3) g
                  have hoff : rt0 ∈ offIds ctx3 :=
                    frameIds_subset_offIds hmem
                  have hdisj := plug_nodup_disjoint
                    (T := ST.node g (ST.node f1.fid l1 r1)
                      (ST.node a aL aR)) hnodG
                  have hg_ne : rt0 ≠ g := by
                    intro he
                    exact hdisj g (by simp [ST.inorder]) (he ▸ hoff)
                  have hp_ne : rt0 ≠ f1.fid := by
                    intro he
                    exact hdisj f1.fid (by simp [ST.inorder]) (he ▸ hoff)
                  have ha_ne : rt0 ≠ a := by
                    intro he
                    exact hdisj a (by simp [ST.inorder]) (he ▸ hoff)
                  simp only [set_black, set_red]
                  rw [set_color_ne _ _ _ ha_ne, set_color_ne _ _ _ hp_ne,
                    set_color_ne _ _ _ hg_ne]
                  refine hrtb (by simp) rt0 ?_
                  rw [hP, plug_rootPtr]
                  simp only [frameIds, List.getLastD_cons]
                  rw [hr0v]
                obtain ⟨h', rt, T', heq, hrep', hino', hblk'⟩ :=
                  ih ctx3 (set_black (set_black (set_red h g) f1.fid) a) g
                    (ST.node f1.fid l1 r1) (ST.node a aL aR) hlen3 hrep3
                    hnodG hrtb3
                refine ⟨h', rt, T', ?_, hrep', ?_, hblk'⟩
                · rw [frameIds_cons, frameIds_cons]
                  show fix_extra_red h (x :: f1.fid :: g :: frameIds ctx3) =
                    some (h', rt)
                  rw [fix_extra_red_case1 h x f1.fid g (frameIds ctx3) a
                    hpb hga hab]
                  exact heq
                · rw [hino', hP]
                  rfl
          | rf g S =>
            have hs2 : get_side h g f1.fid = Side.R := hs
            have hG : repS h (some g)
                (ST.node g S (ST.node f1.fid l1 r1)) :=
              repS_plug_focus ctx3
                (T := ST.node g S (ST.node f1.fid l1 r1)) hrepp
            have haunt : (h g).left = rootPtr S := repS_root hG.2.1
            cases S with
            | nil =>
              have hga : get_child h g (get_side h g f1.fid).flip = none := by
                rw [hs2]
                simpa [get_child, Side.flip, rootPtr] using haunt
              obtain ⟨h', rt, T', hfix, hrep', hino', hblk'⟩ :=
                fix_case2_spec f1 (Frame.rf g ST.nil) ctx3 h x l r hrep hnod
                  (fun rt0 h0 => hrtb (by simp) rt0 h0)
              refine ⟨h', rt, T', ?_, hrep', hino', hblk'⟩
              rw [frameIds_cons, frameIds_cons]
              show fix_extra_red h (x :: f1.fid :: g :: frameIds ctx3) =
                some (h', rt)
              rw [fix_extra_red_case2_none h x f1.fid g (frameIds ctx3)
                hpb hga]
              exact hfix
            | node a aL aR =>
              have haunt2 : (h g).left = some a := by
                simpa [rootPtr] using haunt
              have hga : get_child h g (get_side h g f1.fid).flip =
                  some a := by
                rw [hs2]
                simpa [get_child, Side.flip] using haunt2
              cases hab : is_red h a with
              | false =>
                obtain ⟨h', rt, T', hfix, hrep', hino', hblk'⟩ :=
                  fix_case2_spec f1 (Frame.rf g (ST.node a aL aR)) ctx3 h
                    x l r hrep hnod (fun rt0 h0 => hrtb (by simp) rt0 h0)
                refine ⟨h', rt, T', ?_, hrep', hino', hblk'⟩
                rw [frameIds_cons, frameIds_cons]
                show fix_extra_red h (x :: f1.fid :: g :: frameIds ctx3) =
                  some (h', rt)
                rw [fix_extra_red_case2_black h x f1.fid g (frameIds ctx3)
                  a hpb hga hab]
                exact hfix
              | true =>
                have hrepG : repS h
                    (rootPtr (plug (ST.node g (ST.node a aL aR)
                      (ST.node f1.fid l1 r1)) ctx3))
                    (plug (ST.node g (ST.node a aL aR)
                      (ST.node f1.fid l1 r1)) ctx3) := hrepp
                have hnodG : (plug (ST.node g (ST.node a aL aR)
                    (ST.node f1.fid l1 r1)) ctx3).inorder.Nodup := hnodp
                have hrep3 : repS
                    (set_black (set_black (set_red h g) f1.fid) a)
                    (rootPtr (plug (ST.node g (ST.node a aL aR)
                      (ST.node f1.fid l1 r1)) ctx3))
                    (plug (ST.node g (ST.node a aL aR)
                      (ST.node f1.fid l1 r1)) ctx3) :=
                  repS_set_color (repS_set_color (repS_set_color hrepG))
                have hlen3 : ctx3.length ≤ n := by
                  simp only [List.length_cons] at hlen
                  omega
                have hrtb3 : ctx3 ≠ [] → ∀ rt0,
                    rootPtr (plug (ST.node g (ST.node a aL aR)
                      (ST.node f1.fid l1 r1)) ctx3) = some rt0 →
                    ((set_black (set_black (set_red h g) f1.fid) a)
                      rt0).black = true := by
                  intro hc3 rt0 hr0
                  rw [plug_rootPtr, List.getLastD_cons] at hr0
                  injection hr0 with hr0v
                  have hmem : rt0 ∈ frameIds ctx3 :=
                    hr0v ▸ getLastD_mem (frameIds_ne_nil hc3) g
                  have hoff : rt0 ∈ offIds ctx3 :=
                    frameIds_subset_offIds hmem
                  have hdisj := plug_nodup_disjoint
                    (T := ST.node g (ST.node a aL aR)
                      (ST.node f1.fid l1 r1)) hnodG
                  have hg_ne : rt0 ≠ g := by
                    intro he
                    exact hdisj g (by simp [ST.inorder]) (he ▸ hoff)
                  have hp_ne : rt0 ≠ f1.fid := by
                    intro he
                    exact hdisj f1.fid (by simp [ST.inorder]) (he ▸ hoff)
                  have ha_ne : rt0 ≠ a := by
                    intro he
                    exact hdisj a (by simp [ST.inorder]) (he ▸ hoff)
                  simp only [set_black, set_red]
                  rw [set_color_ne _ _ _ ha_ne, set_color_ne _ _ _ hp_ne,
                    set_color_ne _ _ _ hg_ne]
                  refine hrtb (by simp) rt0 ?_
                  rw [hP, plug_rootPtr]
                  simp only [frameIds, List.getLastD_cons]
                  rw [hr0v]
                obtain ⟨h', rt, T', heq, hrep', hino', hblk'⟩ :=
                  ih ctx3 (set_black (set_black (set_red h g) f1.fid) a) g
                    (ST.node a aL aR) (ST.node f1.fid l1 r1) hlen3 hrep3
                    hnodG hrtb3
                refine ⟨h', rt, T', ?_, hrep', ?_, hblk'⟩
                · rw [frameIds_cons, frameIds_cons]
                  show fix_extra_red h (x :: f1.fid :: g :: frameIds ctx3) =
                    some (h', rt)
                  rw [fix_extra_red_case1 h x f1.fid g (frameIds ctx3) a
                    hpb hga hab]
                  exact heq
                · rw [hino', hP]
                  rfl

end RBC

namespace RBC

/-- In-order order discipline restricts to the focus subtree. -/
theorem Asc_plug_focus {cmp : Ptr → Ptr → Bool} {T : ST} {ctx : List Frame}
    (h : Asc cmp (plug T ctx).inorder) : Asc cmp T.inorder := by
  rw [plug_inorder] at h
  exact h.sublist ((List.sublist_append_right (ctxL ctx) T.inorder).trans
    (List.sublist_append_left _ (ctxR ctx)))

/-- The root of a plugged tree does not depend on the focus subtrees. -/
theorem plug_rootPtr_congr (ctx : List Frame) (x : Ptr) (l r l2 r2 : ST) :
    rootPtr (plug (ST.node x l2 r2) ctx) =
      rootPtr (plug (ST.node x l r) ctx) := by
  rw [plug_rootPtr, plug_rootPtr]

/-- Computation rule: inserting into an empty tree makes the node the
black root. -/
theorem rb_insert_nilroot (maxd : Nat) (h : Heap) (t : Tree) (node : Ptr)
    (hroot : t.root = none) :
    rb_insert maxd h t node =
      some (set_black (set_child (set_child h node .L none) node .R none)
        node, { t with root := some node }) := by
  simp [rb_insert, hroot]

/-- Computation rule: inserting into a non-empty tree descends, links
the node red and runs the fixup. -/
theorem rb_insert_eq_go (maxd : Nat) (h : Heap) (t : Tree)
    (node rr x' : Ptr) (prest : List Ptr) (h4 : Heap) (newroot : Ptr)
    (hroot : t.root = some rr)
    (hstk : find_and_stack maxd
      (set_child (set_child h node .L none) node .R none) t.cmp node rr =
      x' :: prest)
    (hfer : fix_extra_red
      (set_red (set_child (set_child (set_child h node .L none) node .R
        none) x' (if t.cmp node x' then Side.L else Side.R) (some node))
        node) (node :: x' :: prest) = some (h4, newroot)) :
    rb_insert maxd h t node = some (h4, { t with root := some newroot }) := by
  simp [rb_insert, hroot, hstk, hfer]

end RBC

namespace RBC

/-- Specification of `rb_insert`: on a represented, duplicate-free,
in-order-sorted tree with a black root and enough depth allowance, the
insertion succeeds and yields a tree whose in-order sequence places the
new node between the ids not after it and the ids strictly after it;
the new root is black. -/
theorem rb_insert_spec (maxd : Nat) (h : Heap) (t : Tree) (T : ST)
    (node : Ptr)
    (hswo : SWO t.cmp)
    (hrep : repS h t.root T)
    (hnod : T.inorder.Nodup)
    (hasc : Asc t.cmp T.inorder)
    (hfresh : node ∉ T.inorder)
    (hrootb : ∀ rt0, t.root = some rt0 → (h rt0).black = true)
    (hd : T.ht + 2 ≤ maxd) :
    ∃ (h' : Heap) (rt : Ptr) (T' : ST) (A B : List Ptr),
      rb_insert maxd h t node = some (h', { t with root := some rt }) ∧
      repS h' (some rt) T' ∧
      T'.inorder = A ++ node :: B ∧
      T.inorder = A ++ B ∧
      (∀ y ∈ A, t.cmp node y = false) ∧
      (∀ z ∈ B, t.cmp node z = true) ∧
      (h' rt).black = true := by
  cases hroot : t.root with
  | none =>
    cases T with
    | node x0 l0 r0 =>
      rw [hroot] at hrep
      exact absurd hrep.1 (by simp)
    | nil =>
      refine ⟨set_black (set_child (set_child h node .L none) node .R none)
        node, node, ST.node node ST.nil ST.nil, [], [],
        rb_insert_nilroot maxd h t node hroot, ⟨rfl, ?_, ?_⟩,
        by simp [ST.inorder], by simp [ST.inorder], by simp, by simp, ?_⟩
      · show ((set_black (set_child (set_child h node .L none) node .R none)
          node) node).left = none
        rw [set_black, set_color_left, set_child_at_R, set_child_at_L]
      · show ((set_black (set_child (set_child h node .L none) node .R none)
          node) node).right = none
        rw [set_black, set_color_right, set_child_at_R]
      · simp [set_black, set_color]
  | some rr =>
    cases T with
    | nil =>
      rw [hroot] at hrep
      exact absurd hrep (by simp [repS])
    | node x0 l0 r0 =>
      rw [hroot] at hrep
      have hrx : x0 = rr := (Option.some.inj hrep.1).symm
      subst hrx
      have hlinks1 : ∀ q, q ≠ node →
          ((set_child (set_child h node .L none) node .R none) q).left =
            (h q).left ∧
          ((set_child (set_child h node .L none) node .R none) q).right =
            (h q).right := by
        intro q hq
        rw [set_child_ne _ _ _ _ hq, set_child_ne _ _ _ _ hq]
        exact ⟨rfl, rfl⟩
      have hrep1 : repS (set_child (set_child h node .L none) node .R none)
          (some x0) (ST.node x0 l0 r0) := by
        refine repS_congr ?_ hrep
        intro q hq
        exact hlinks1 q (fun he => hfresh (he ▸ hq))
      obtain ⟨x', l', r', ctx', hstk0, hplug', hnull, hnil, hL', hR'⟩ :=
        fas_go_path hswo hasc hfresh hrep1
          (maxd - 3) x0 l0 r0 [] rfl (by omega)
          (by intro y hy; simp [ctxL] at hy)
          (by intro z hz; simp [ctxR] at hz)
      have hstk : find_and_stack maxd
          (set_child (set_child h node .L none) node .R none) t.cmp node
          x0 = x' :: frameIds ctx' := by
        unfold find_and_stack
        simpa [frameIds] using hstk0
      have hx'mem : x' ∈ (ST.node x0 l0 r0).inorder := by
        rw [← hplug']
        exact mem_plug_focus
      have hx'node : x' ≠ node := fun he => hfresh (he ▸ hx'mem)
      have hrepAll : repS (set_child (set_child h node .L none) node .R none)
          (rootPtr (plug (ST.node x' l' r') ctx'))
          (plug (ST.node x' l' r') ctx') := by
        rw [hplug']
        exact hrep1
      have hnodAll : (plug (ST.node x' l' r') ctx').inorder.Nodup := by
        rw [hplug']
        exact hnod
      have hascAll : Asc t.cmp (plug (ST.node x' l' r') ctx').inorder := by
        rw [hplug']
        exact hasc
      have hfoc : repS (set_child (set_child h node .L none) node .R none)
          (some x') (ST.node x' l' r') :=
        repS_plug_focus ctx' hrepAll
      have hnodf : (ST.node x' l' r').inorder.Nodup :=
        plug_nodup_focus hnodAll
      have hfocL : ((set_child (set_child h node .L none) node .R none)
          x').left = rootPtr l' := repS_root hfoc.2.1
      have hfocR : ((set_child (set_child h node .L none) node .R none)
          x').right = rootPtr r' := repS_root hfoc.2.2
      have hnodeslotL : ((set_child (set_child h node .L none) node .R none)
          node).left = none := by
        rw [set_child_at_R, set_child_at_L]
      have hnodeslotR : ((set_child (set_child h node .L none) node .R none)
          node).right = none := by
        rw [set_child_at_R]
      cases hc : t.cmp node x' with
      | true =>
        have hl' : l' = ST.nil := by simpa [hc] using hnil
        subst hl'
        have hlinks3 : ∀ q, q ≠ x' →
            ((set_red (set_child (set_child (set_child h node .L none) node
              .R none) x' Side.L (some node)) node) q).left =
              ((set_child (set_child h node .L none) node .R none) q).left ∧
            ((set_red (set_child (set_child (set_child h node .L none) node
              .R none) x' Side.L (some node)) node) q).right =
              ((set_child (set_child h node .L none) node .R none)
                q).right := by
          intro q hq
          rw [set_red, set_color_left, set_color_right,
            set_child_ne _ _ _ _ hq]
          exact ⟨rfl, rfl⟩
        have hblack3 : ∀ q, q ≠ node →
            ((set_red (set_child (set_child (set_child h node .L none) node
              .R none) x' Side.L (some node)) node) q).black =
              (h q).black := by
          intro q hq
          rw [set_red, set_color_ne _ _ _ hq, set_child_black,
            set_child_black, set_child_black]
        have hx'L : ((set_red (set_child (set_child (set_child h node .L
            none) node .R none) x' Side.L (some node)) node) x').left =
            some node := by
          rw [set_red, set_color_left, set_child_at_L]
        have hx'R : ((set_red (set_child (set_child (set_child h node .L
            none) node .R none) x' Side.L (some node)) node) x').right =
            rootPtr r' := by
          rw [set_red, set_color_right, set_child_at_L]
          exact hfocR
        have hnodeL3 : ((set_red (set_child (set_child (set_child h node .L
            none) node .R none) x' Side.L (some node)) node) node).left =
            none := by
          rw [set_red, set_color_left, set_child_ne _ _ _ _ (Ne.symm
            hx'node)]
          exact hnodeslotL
        have hnodeR3 : ((set_red (set_child (set_child (set_child h node .L
            none) node .R none) x' Side.L (some node)) node) node).right =
            none := by
          rw [set_red, set_color_right, set_child_ne _ _ _ _ (Ne.symm
            hx'node)]
          exact hnodeslotR
        have hrepsub : repS (set_red (set_child (set_child (set_child h
            node .L none) node .R none) x' Side.L (some node)) node)
            (some node) (ST.node node ST.nil ST.nil) := by
          refine ⟨rfl, ?_, ?_⟩
          · show _ = none
            exact hnodeL3
          · show _ = none
            exact hnodeR3
        have hrepr' : repS (set_red (set_child (set_child (set_child h node
            .L none) node .R none) x' Side.L (some node)) node)
            (rootPtr r') r' := by
          have h22 := hfoc.2.2
          rw [hfocR] at h22
          refine repS_congr ?_ h22
          intro q hq
          refine hlinks3 q ?_
          intro he
          exact (nodup_node_parts hnodf).2.2.2.1 (he ▸ hq)
        have hT2 : repS (set_red (set_child (set_child (set_child h node .L
            none) node .R none) x' Side.L (some node)) node)
            (rootPtr (ST.node x' (ST.node node ST.nil ST.nil) r'))
            (ST.node x' (ST.node node ST.nil ST.nil) r') := by
          refine ⟨rfl, ?_, ?_⟩
          · rw [hx'L]
            exact hrepsub
          · rw [hx'R]
            exact hrepr'
        have hpar : parentCond
            (set_child (set_child h node .L none) node .R none)
            (set_red (set_child (set_child (set_child h node .L none) node
              .R none) x' Side.L (some node)) node)
            (ST.node x' (ST.node node ST.nil ST.nil) r') ctx' := by
          cases ctx' with
          | nil => trivial
          | cons fr0 ctx'' =>
            cases fr0 with
            | lf p Trp =>
              have hfp : repS (set_child (set_child h node .L none) node .R
                  none) (some p)
                  (ST.node p (ST.node x' ST.nil r') Trp) :=
                repS_plug_focus ctx'' hrepAll
              have hpx' : ((set_child (set_child h node .L none) node .R
                  none) p).left = some x' := repS_root hfp.2.1
              have hpne : p ≠ x' := by
                intro he
                have hnp := plug_nodup_focus
                  (T := ST.node p (ST.node x' ST.nil r') Trp) hnodAll
                exact (nodup_node_parts hnp).2.2.1
                  (by rw [he]; simp [ST.inorder])
              exact ⟨by rw [(hlinks3 p hpne).1]; exact hpx',
                (hlinks3 p hpne).2⟩
            | rf p Tlp =>
              have hfp : repS (set_child (set_child h node .L none) node .R
                  none) (some p)
                  (ST.node p Tlp (ST.node x' ST.nil r')) :=
                repS_plug_focus ctx'' hrepAll
              have hpx' : ((set_child (set_child h node .L none) node .R
                  none) p).right = some x' := repS_root hfp.2.2
              have hpne : p ≠ x' := by
                intro he
                have hnp := plug_nodup_focus
                  (T := ST.node p Tlp (ST.node x' ST.nil r')) hnodAll
                exact (nodup_node_parts hnp).2.2.2.1
                  (by rw [he]; simp [ST.inorder])
              exact ⟨by rw [(hlinks3 p hpne).2]; exact hpx',
                (hlinks3 p hpne).1⟩
        have hoffag : ∀ q ∈ offIds ctx', headFrameId ctx' ≠ some q →
            ((set_red (set_child (set_child (set_child h node .L none) node
              .R none) x' Side.L (some node)) node) q).left =
              ((set_child (set_child h node .L none) node .R none)
                q).left ∧
            ((set_red (set_child (set_child (set_child h node .L none) node
              .R none) x' Side.L (some node)) node) q).right =
              ((set_child (set_child h node .L none) node .R none)
                q).right := by
          intro q hq _
          refine hlinks3 q ?_
          intro he
          exact plug_nodup_disjoint (T := ST.node x' ST.nil r') hnodAll x' (by simp [ST.inorder]) (he ▸ hq)
        have hrepT2 := repS_graft ctx' (T := ST.node x' ST.nil r')
          hrepAll hnodAll hT2 hpar hoffag
        have hOld : (ST.node x0 l0 r0).inorder =
            ctxL ctx' ++ (x' :: r'.inorder) ++ ctxR ctx' := by
          rw [← hplug', plug_inorder]
          simp [ST.inorder]
        have hNew : (plug (ST.node node ST.nil ST.nil)
            (Frame.lf x' r' :: ctx')).inorder =
            ctxL ctx' ++ (node :: x' :: r'.inorder) ++ ctxR ctx' := by
          show (plug (ST.node x' (ST.node node ST.nil ST.nil) r')
            ctx').inorder = _
          rw [plug_inorder]
          simp [ST.inorder]
        have hfresh2 : node ∉ ctxL ctx' ++ x' ::
            (r'.inorder ++ ctxR ctx') := by
          rw [hOld] at hfresh
          simpa using hfresh
        have hnod2 : (ctxL ctx' ++ x' ::
            (r'.inorder ++ ctxR ctx')).Nodup := by
          rw [hOld] at hnod
          rw [List.append_assoc, List.cons_append] at hnod
          exact hnod
        have hnodF : (plug (ST.node node ST.nil ST.nil)
            (Frame.lf x' r' :: ctx')).inorder.Nodup := by
          rw [hNew, List.append_assoc, List.cons_append]
          exact List.nodup_middle.mpr (List.nodup_cons.mpr
            ⟨hfresh2, hnod2⟩)
        have hrtbF : (Frame.lf x' r' :: ctx') ≠ [] → ∀ rt0,
            rootPtr (plug (ST.node node ST.nil ST.nil)
              (Frame.lf x' r' :: ctx')) = some rt0 →
            ((set_red (set_child (set_child (set_child h node .L none) node
              .R none) x' Side.L (some node)) node) rt0).black = true := by
          intro _ rt0 hr0
          have hr1 : rootPtr (plug (ST.node x' ST.nil r') ctx') =
              some rt0 := by
            rw [← plug_rootPtr_congr ctx' x' ST.nil r'
              (ST.node node ST.nil ST.nil) r']
            exact hr0
          rw [hplug'] at hr1
          have hrt0 : x0 = rt0 := Option.some.inj hr1
          subst hrt0
          rw [hblack3 x0 (fun he => hfresh (he ▸ (by simp [ST.inorder] :
            x0 ∈ (ST.node x0 l0 r0).inorder)))]
          exact hrootb x0 hroot
        obtain ⟨h4, rt, T', hFER, hrep', hino', hblk'⟩ :=
          fix_extra_red_spec ((Frame.lf x' r' :: ctx').length)
            (Frame.lf x' r' :: ctx')
            (set_red (set_child (set_child (set_child h node .L none) node
              .R none) x' Side.L (some node)) node)
            node ST.nil ST.nil le_rfl hrepT2 hnodF hrtbF
        refine ⟨h4, rt, T', ctxL ctx', x' :: (r'.inorder ++ ctxR ctx'),
          ?_, hrep', ?_, ?_, hL', ?_, hblk'⟩
        · refine rb_insert_eq_go maxd h t node x0 x' (frameIds ctx') h4 rt
            hroot hstk ?_
          rw [hc]
          exact hFER
        · rw [hino', hNew]
          simp [List.append_assoc]
        · rw [hOld]
          simp [List.append_assoc]
        · intro z hz
          simp only [List.mem_cons, List.mem_append] at hz
          rcases hz with rfl | hz | hz
          · exact hc
          · have hparts := Asc.node_parts (Asc_plug_focus hascAll)
            exact hswo.lt_of_lt_of_nlt hc (hparts.2.1 z hz)
          · exact hR' z hz
      | false =>
        have hr' : r' = ST.nil := by simpa [hc] using hnil
        subst hr'
        have hlinks3 : ∀ q, q ≠ x' →
            ((set_red (set_child (set_child (set_child h node .L none) node
              .R none) x' Side.R (some node)) node) q).left =
              ((set_child (set_child h node .L none) node .R none) q).left ∧
            ((set_red (set_child (set_child (set_child h node .L none) node
              .R none) x' Side.R (some node)) node) q).right =
              ((set_child (set_child h node .L none) node .R none)
                q).right := by
          intro q hq
          rw [set_red, set_color_left, set_color_right,
            set_child_ne _ _ _ _ hq]
          exact ⟨rfl, rfl⟩
        have hblack3 : ∀ q, q ≠ node →
            ((set_red (set_child (set_child (set_child h node .L none) node
              .R none) x' Side.R (some node)) node) q).black =
              (h q).black := by
          intro q hq
          rw [set_red, set_color_ne _ _ _ hq, set_child_black,
            set_child_black, set_child_black]
        have hx'R : ((set_red (set_child (set_child (set_child h node .L
            none) node .R none) x' Side.R (some node)) node) x').right =
            some node := by
          rw [set_red, set_color_right, set_child_at_R]
        have hx'L : ((set_red (set_child (set_child (set_child h node .L
            none) node .R none) x' Side.R (some node)) node) x').left =
            rootPtr l' := by
          rw [set_red, set_color_left, set_child_at_R]
          exact hfocL
        have hnodeL3 : ((set_red (set_child (set_child (set_child h node .L
            none) node .R none) x' Side.R (some node)) node) node).left =
            none := by
          rw [set_red, set_color_left, set_child_ne _ _ _ _ (Ne.symm
            hx'node)]
          exact hnodeslotL
        have hnodeR3 : ((set_red (set_child (set_child (set_child h node .L
            none) node .R none) x' Side.R (some node)) node) node).right =
            none := by
          rw [set_red, set_color_right, set_child_ne _ _ _ _ (Ne.symm
            hx'node)]
          exact hnodeslotR
        have hrepsub : repS (set_red (set_child (set_child (set_child h
            node .L none) node .R none) x' Side.R (some node)) node)
            (some node) (ST.node node ST.nil ST.nil) := by
          refine ⟨rfl, ?_, ?_⟩
          · show _ = none
            exact hnodeL3
          · show _ = none
            exact hnodeR3
        have hrepl' : repS (set_red (set_child (set_child (set_child h node
            .L none) node .R none) x' Side.R (some node)) node)
            (rootPtr l') l' := by
          have h21 := hfoc.2.1
          rw [hfocL] at h21
          refine repS_congr ?_ h21
          intro q hq
          refine hlinks3 q ?_
          intro he
          exact (nodup_node_parts hnodf).2.2.1 (he ▸ hq)
        have hT2 : repS (set_red (set_child (set_child (set_child h node .L
            none) node .R none) x' Side.R (some node)) node)
            (rootPtr (ST.node x' l' (ST.node node ST.nil ST.nil)))
            (ST.node x' l' (ST.node node ST.nil ST.nil)) := by
          refine ⟨rfl, ?_, ?_⟩
          · rw [hx'L]
            exact hrepl'
          · rw [hx'R]
            exact hrepsub
        have hpar : parentCond
            (set_child (set_child h node .L none) node .R none)
            (set_red (set_child (set_child (set_child h node .L none) node
              .R none) x' Side.R (some node)) node)
            (ST.node x' l' (ST.node node ST.nil ST.nil)) ctx' := by
          cases ctx' with
          | nil => trivial
          | cons fr0 ctx'' =>
            cases fr0 with
            | lf p Trp =>
              have hfp : repS (set_child (set_child h node .L none) node .R
                  none) (some p)
                  (ST.node p (ST.node x' l' ST.nil) Trp) :=
                repS_plug_focus ctx'' hrepAll
              have hpx' : ((set_child (set_child h node .L none) node .R
                  none) p).left = some x' := repS_root hfp.2.1
              have hpne : p ≠ x' := by
                intro he
                have hnp := plug_nodup_focus
                  (T := ST.node p (ST.node x' l' ST.nil) Trp) hnodAll
                exact (nodup_node_parts hnp).2.2.1
                  (by rw [he]; simp [ST.inorder])
              exact ⟨by rw [(hlinks3 p hpne).1]; exact hpx',
                (hlinks3 p hpne).2⟩
            | rf p Tlp =>
              have hfp : repS (set_child (set_child h node .L none) node .R
                  none) (some p)
                  (ST.node p Tlp (ST.node x' l' ST.nil)) :=
                repS_plug_focus ctx'' hrepAll
              have hpx' : ((set_child (set_child h node .L none) node .R
                  none) p).right = some x' := repS_root hfp.2.2
              have hpne : p ≠ x' := by
                intro he
                have hnp := plug_nodup_focus
                  (T := ST.node p Tlp (ST.node x' l' ST.nil)) hnodAll
                exact (nodup_node_parts hnp).2.2.2.1
                  (by rw [he]; simp [ST.inorder])
              exact ⟨by rw [(hlinks3 p hpne).2]; exact hpx',
                (hlinks3 p hpne).1⟩
        have hoffag : ∀ q ∈ offIds ctx', headFrameId ctx' ≠ some q →
            ((set_red (set_child (set_child (set_child h node .L none) node
              .R none) x' Side.R (some node)) node) q).left =
              ((set_child (set_child h node .L none) node .R none)
                q).left ∧
            ((set_red (set_child (set_child (set_child h node .L none) node
              .R none) x' Side.R (some node)) node) q).right =
              ((set_child (set_child h node .L none) node .R none)
                q).right := by
          intro q hq _
          refine hlinks3 q ?_
          intro he
          exact plug_nodup_disjoint (T := ST.node x' l' ST.nil) hnodAll x' (by simp [ST.inorder]) (he ▸ hq)
        have hrepT2 := repS_graft ctx' (T := ST.node x' l' ST.nil)
          hrepAll hnodAll hT2 hpar hoffag
        have hOld : (ST.node x0 l0 r0).inorder =
            ctxL ctx' ++ (l'.inorder ++ [x']) ++ ctxR ctx' := by
          rw [← hplug', plug_inorder]
          simp [ST.inorder]
        have hNew : (plug (ST.node node ST.nil ST.nil)
            (Frame.rf x' l' :: ctx')).inorder =
            ctxL ctx' ++ (l'.inorder ++ [x', node]) ++ ctxR ctx' := by
          show (plug (ST.node x' l' (ST.node node ST.nil ST.nil))
            ctx').inorder = _
          rw [plug_inorder]
          simp [ST.inorder]
        have hfresh2 : node ∉ (ctxL ctx' ++ (l'.inorder ++ [x'])) ++
            ctxR ctx' := by
          rw [hOld] at hfresh
          simpa using hfresh
        have hnod2 : ((ctxL ctx' ++ (l'.inorder ++ [x'])) ++
            ctxR ctx').Nodup := by
          rw [hOld] at hnod
          exact hnod
        have hnodF : (plug (ST.node node ST.nil ST.nil)
            (Frame.rf x' l' :: ctx')).inorder.Nodup := by
          rw [hNew]
          have heq2 : ctxL ctx' ++ (l'.inorder ++ [x', node]) ++
              ctxR ctx' = (ctxL ctx' ++ (l'.inorder ++ [x'])) ++ node ::
              ctxR ctx' := by
            simp [List.append_assoc]
          rw [heq2]
          exact List.nodup_middle.mpr (List.nodup_cons.mpr
            ⟨hfresh2, hnod2⟩)
        have hrtbF : (Frame.rf x' l' :: ctx') ≠ [] → ∀ rt0,
            rootPtr (plug (ST.node node ST.nil ST.nil)
              (Frame.rf x' l' :: ctx')) = some rt0 →
            ((set_red (set_child (set_child (set_child h node .L none) node
              .R none) x' Side.R (some node)) node) rt0).black = true := by
          intro _ rt0 hr0
          have hr1 : rootPtr (plug (ST.node x' l' ST.nil) ctx') =
              some rt0 := by
            rw [← plug_rootPtr_congr ctx' x' l' ST.nil l'
              (ST.node node ST.nil ST.nil)]
            exact hr0
          rw [hplug'] at hr1
          have hrt0 : x0 = rt0 := Option.some.inj hr1
          subst hrt0
          rw [hblack3 x0 (fun he => hfresh (he ▸ (by simp [ST.inorder] :
            x0 ∈ (ST.node x0 l0 r0).inorder)))]
          exact hrootb x0 hroot
        obtain ⟨h4, rt, T', hFER, hrep', hino', hblk'⟩ :=
          fix_extra_red_spec ((Frame.rf x' l' :: ctx').length)
            (Frame.rf x' l' :: ctx')
            (set_red (set_child (set_child (set_child h node .L none) node
              .R none) x' Side.R (some node)) node)
            node ST.nil ST.nil le_rfl hrepT2 hnodF hrtbF
        refine ⟨h4, rt, T', ctxL ctx' ++ (l'.inorder ++ [x']), ctxR ctx',
          ?_, hrep', ?_, ?_, ?_, hR', hblk'⟩
        · refine rb_insert_eq_go maxd h t node x0 x' (frameIds ctx') h4 rt
            hroot hstk ?_
          rw [hc]
          exact hFER
        · rw [hino', hNew]
          simp [List.append_assoc]
        · rw [hOld]
        · intro y hy
          simp only [List.mem_append, List.mem_singleton] at hy
          rcases hy with hy | hy | rfl
          · exact hL' y hy
          · have hparts := Asc.node_parts (Asc_plug_focus hascAll)
            exact hswo.neg_tr hc (hparts.1 y hy)
          · exact hc

end RBC

namespace RBC

/-- A comparator given by a numeric key is a strict weak order. -/
theorem SWO_decide_lt_key (f : Ptr → Nat) :
    SWO (fun a b => decide (f a < f b)) := by
  refine ⟨fun a => by simp, fun a b c hab hbc => ?_, fun a b c hab hbc => ?_⟩
  · simp only [decide_eq_true_eq] at *
    omega
  · simp only [decide_eq_false_iff_not] at *
    omega

/-- C8: when the comparator reports that the inserted node does not
strictly precede the current node — ties included — `find_and_stack`
descends to the RIGHT child, and a successful `rb_insert` places the
new node after every node of the tree it ties with in the in-order
sequence. -/
theorem insert_tie_right_after_equals (maxd : Nat) (h : Heap) (t : Tree)
    (T : ST) (node : Ptr)
    (hswo : SWO t.cmp) (hrep : repS h t.root T) (hnod : T.inorder.Nodup)
    (hasc : Asc t.cmp T.inorder) (hfresh : node ∉ T.inorder)
    (hrootb : ∀ rt0, t.root = some rt0 → (h rt0).black = true)
    (hd : T.ht + 2 ≤ maxd) :
    (∀ (hh : Heap) (cmp2 : Ptr → Ptr → Bool) (nd top ch : Ptr)
      (rest : List Ptr) (fuel : Nat), top ≠ nd → cmp2 nd top = false →
      get_child hh top Side.R = some ch →
      fas_go hh cmp2 nd (top :: rest) (fuel + 1) =
        fas_go hh cmp2 nd (ch :: top :: rest) fuel) ∧
    ∃ (h' : Heap) (rt : Ptr) (T' : ST) (A B : List Ptr),
      rb_insert maxd h t node = some (h', { t with root := some rt }) ∧
      repS h' (some rt) T' ∧
      T'.inorder = A ++ node :: B ∧
      T.inorder = A ++ B ∧
      (∀ y ∈ T.inorder, t.cmp node y = false → t.cmp y node = false →
        y ∈ A) := by
  constructor
  · intro hh cmp2 nd top ch rest fuel hne hcmp hch
    rw [fas_go, if_neg hne, hcmp]
    simp only [Bool.false_eq_true, if_false]
    rw [hch]
  · obtain ⟨h', rt, T', A, B, heq, hrep', hino', holdo, hA, hB, hblk⟩ :=
      rb_insert_spec maxd h t T node hswo hrep hnod hasc hfresh hrootb hd
    refine ⟨h', rt, T', A, B, heq, hrep', hino', holdo, ?_⟩
    intro y hy hnlt _
    rw [holdo] at hy
    rcases List.mem_append.mp hy with hyA | hyB
    · exact hyA
    · exact absurd (hB y hyB) (by simp [hnlt])

/-- Witness for the tie-insertion theorem: node 1 (key 5) inserted into
the tree holding only node 0 (key 5). -/
theorem insert_tie_right_after_equals_witness :
    (∀ (hh : Heap) (cmp2 : Ptr → Ptr → Bool) (nd top ch : Ptr)
      (rest : List Ptr) (fuel : Nat), top ≠ nd → cmp2 nd top = false →
      get_child hh top Side.R = some ch →
      fas_go hh cmp2 nd (top :: rest) (fuel + 1) =
        fas_go hh cmp2 nd (ch :: top :: rest) fuel) ∧
    ∃ (h' : Heap) (rt : Ptr) (T' : ST) (A B : List Ptr),
      rb_insert MAX_TREE_DEPTH_64
        (fun _ => { left := none, right := none, black := true })
        { root := some 0, cmp := tie_cmp } 1 =
        some (h', { root := some rt, cmp := tie_cmp }) ∧
      repS h' (some rt) T' ∧
      T'.inorder = A ++ 1 :: B ∧
      (ST.node 0 ST.nil ST.nil).inorder = A ++ B ∧
      (∀ y ∈ (ST.node 0 ST.nil ST.nil).inorder, tie_cmp 1 y = false →
        tie_cmp y 1 = false → y ∈ A) :=
  insert_tie_right_after_equals MAX_TREE_DEPTH_64
    (fun _ => { left := none, right := none, black := true })
    { root := some 0, cmp := tie_cmp } (ST.node 0 ST.nil ST.nil) 1
    (SWO_decide_lt_key tie_key) (by decide) (by decide)
    (by simp [Asc, ST.inorder]) (by decide) (fun _ _ => rfl) (by decide)

end RBC

namespace RBC

/-- Denotation of an iterator stack: the sequence of nodes the
traversal has yet to yield.  An entry pushed on a left descent
(`went_left = true`) still owes its node and its whole right subtree; a
re-pushed entry (`went_left = false`) owes nothing.  Each pending
entry records the safety-margin bound the source's stack check needs
when the entry is popped. -/
inductive SRep (maxd : Nat) (h : Heap) : List (Ptr × Bool) → List Ptr → Prop
  | nil : SRep maxd h [] []
  | consT (n : Ptr) (R : ST) (rest : List (Ptr × Bool)) (L : List Ptr) :
      repS h (get_child h n Side.R) R →
      R.ht + rest.length + 1 ≤ maxd - 2 →
      SRep maxd h rest L →
      SRep maxd h ((n, true) :: rest) (n :: (R.inorder ++ L))
  | consF (n : Ptr) (rest : List (Ptr × Bool)) (L : List Ptr) :
      SRep maxd h rest L → SRep maxd h ((n, false) :: rest) L

/-- `__rb_foreach_push_left`: pushing the left spine of a represented
subtree prepends its in-order sequence to the stack's pending list. -/
theorem push_left_spec (maxd : Nat) (h : Heap) :
    ∀ (S : ST) (fuel : Nat) (r : Option Ptr) (stk : List (Ptr × Bool))
      (L : List Ptr),
      repS h r S → S.ht ≤ fuel → S.ht + stk.length ≤ maxd - 2 →
      SRep maxd h stk L →
      ∃ stk2, push_left maxd h fuel r stk = some stk2 ∧
        SRep maxd h stk2 (S.inorder ++ L) := by
  intro S
  induction S with
  | nil =>
    intro fuel r stk L hr _ _ hs
    have hrn : r = none := hr
    subst hrn
    exact ⟨stk, by cases fuel <;> rfl, by simpa [ST.inorder] using hs⟩
  | node n A B ihA ihB =>
    intro fuel r stk L hr hfuel hlen hs
    have hrn : r = some n := hr.1
    subst hrn
    cases fuel with
    | zero =>
      exfalso
      simp only [ST.ht] at hfuel
      omega
    | succ f =>
      have hlt : ¬ (maxd - 2 ≤ stk.length) := by
        simp only [ST.ht] at hlen
        omega
      have hsrep2 : SRep maxd h ((n, true) :: stk) (n :: (B.inorder ++ L)) := by
        refine SRep.consT n B stk L hr.2.2 ?_ hs
        simp only [ST.ht] at hlen
        omega
      obtain ⟨stk2, hpl, hs2⟩ := ihA f (rootPtr A) ((n, true) :: stk)
        (n :: (B.inorder ++ L))
        (by rw [← repS_root hr.2.1]; exact hr.2.1)
        (by simp only [ST.ht] at hfuel; omega)
        (by simp only [ST.ht] at hlen; simp only [List.length_cons]; omega)
        hsrep2
      refine ⟨stk2, ?_, ?_⟩
      · rw [push_left, if_neg hlt]
        have hgl : get_child h n Side.L = rootPtr A := repS_root hr.2.1
        rw [hgl]
        exact hpl
      · simpa [ST.inorder, List.append_assoc] using hs2

/-- One turn of the `__rb_foreach_next` loop: an empty pending list
ends the traversal; otherwise the head pending node is yielded and the
stack still denotes the remainder. -/
theorem foreach_loop_spec (maxd : Nat) (h : Heap) :
    ∀ (stk : List (Ptr × Bool)) (L : List Ptr), SRep maxd h stk L →
      (L = [] ∧ foreach_loop maxd h stk = (none, IterState.done)) ∨
      (∃ n L2 stk2, L = n :: L2 ∧
        foreach_loop maxd h stk = (some n, IterState.active stk2) ∧
        SRep maxd h stk2 L2) := by
  intro stk L hs
  induction hs with
  | nil => exact Or.inl ⟨rfl, rfl⟩
  | consT n R rest L hrB hbd hrest ih =>
    right
    obtain ⟨stk2, hpl, hs2⟩ := push_left_spec maxd h R maxd
      (get_child h n Side.R) ((n, false) :: rest) L hrB (by omega)
      (by simp only [List.length_cons]; omega) (SRep.consF n rest L hrest)
    refine ⟨n, R.inorder ++ L, stk2, rfl, ?_, hs2⟩
    rw [foreach_loop, if_pos rfl, hpl]
  | consF n rest L hrest ih =>
    have hred : foreach_loop maxd h ((n, false) :: rest) =
        foreach_loop maxd h rest := by
      rw [foreach_loop, if_neg (by simp)]
    rcases ih with ⟨h1, h2⟩ | ⟨n2, L2, stk2, h1, h2, h3⟩
    · exact Or.inl ⟨h1, by rw [hred, h2]⟩
    · exact Or.inr ⟨n2, L2, stk2, h1, by rw [hred, h2], h3⟩

/-- Computation rule for `rb_foreach_next` on an active iterator. -/
theorem rb_foreach_next_active (maxd : Nat) (h : Heap) (t : Tree)
    (stk : List (Ptr × Bool)) (r0 : Ptr) (hroot : t.root = some r0) :
    rb_foreach_next maxd h t (.active stk) = foreach_loop maxd h stk := by
  simp [rb_foreach_next, hroot]

/-- Computation rules for one driving step of `RB_FOREACH`. -/
theorem rb_foreach_all_step_some (maxd : Nat) (h : Heap) (t : Tree)
    (fuel : Nat) (f f2 : IterState) (n : Ptr)
    (hn : rb_foreach_next maxd h t f = (some n, f2)) :
    rb_foreach_all maxd h t (fuel + 1) f =
      n :: rb_foreach_all maxd h t fuel f2 := by
  simp [rb_foreach_all, hn]

theorem rb_foreach_all_step_none (maxd : Nat) (h : Heap) (t : Tree)
    (fuel : Nat) (f f2 : IterState)
    (hn : rb_foreach_next maxd h t f = (none, f2)) :
    rb_foreach_all maxd h t (fuel + 1) f = [] := by
  simp [rb_foreach_all, hn]

/-- Driving the iterator from an active stack yields exactly the
pending list, provided the fuel exceeds its length. -/
theorem foreach_drive (maxd : Nat) (h : Heap) (t : Tree) (r0 : Ptr)
    (hroot : t.root = some r0) :
    ∀ (fuel : Nat) (stk : List (Ptr × Bool)) (L : List Ptr),
      SRep maxd h stk L → L.length < fuel →
      rb_foreach_all maxd h t fuel (.active stk) = L := by
  intro fuel
  induction fuel with
  | zero =>
    intro stk L _ hlen
    exact absurd hlen (by omega)
  | succ f ih =>
    intro stk L hs hlen
    rcases foreach_loop_spec maxd h stk L hs with ⟨h1, h2⟩ |
      ⟨n, L2, stk2, h1, h2, h3⟩
    · subst h1
      exact rb_foreach_all_step_none maxd h t f _ _
        (by rw [rb_foreach_next_active maxd h t stk r0 hroot, h2])
    · subst h1
      rw [rb_foreach_all_step_some maxd h t f _ _ n
        (by rw [rb_foreach_next_active maxd h t stk r0 hroot, h2])]
      rw [ih stk2 L2 h3 (by simpa using Nat.lt_of_succ_lt_succ hlen)]

/-- `RB_FOREACH` driven to exhaustion on a represented tree yields
exactly the tree's in-order sequence. -/
theorem rb_foreach_all_inorder (maxd : Nat) (h : Heap) (t : Tree) (T : ST)
    (fuel : Nat) (hrep : repS h t.root T) (hht : T.ht + 2 ≤ maxd)
    (hfuel : T.inorder.length < fuel) :
    rb_foreach_all maxd h t fuel .uninit = T.inorder := by
  cases fuel with
  | zero => exact absurd hfuel (by omega)
  | succ f =>
    cases hroot : t.root with
    | none =>
      have hT : T = ST.nil := by
        cases T with
        | nil => rfl
        | node x l r =>
          rw [hroot] at hrep
          exact absurd hrep.1 (by simp)
      subst hT
      refine rb_foreach_all_step_none maxd h t f _ (.uninit) ?_
      rw [rb_foreach_next]
      rw [hroot]
    | some r0 =>
      obtain ⟨stk2, hpl, hs2⟩ := push_left_spec maxd h T maxd (some r0) []
        [] (by rw [← hroot]; exact hrep) (by omega)
        (by simp only [List.length_nil]; omega) SRep.nil
      rw [List.append_nil] at hs2
      have hnext : rb_foreach_next maxd h t .uninit =
          foreach_loop maxd h stk2 := by
        rw [rb_foreach_next, hroot]
        dsimp only
        rw [hpl]
      rcases foreach_loop_spec maxd h stk2 T.inorder hs2 with ⟨h1, h2⟩ |
        ⟨n, L2, stk3, h1, h2, h3⟩
      · rw [h1]
        exact rb_foreach_all_step_none maxd h t f _ _
          (by rw [hnext, h2])
      · rw [h1]
        rw [rb_foreach_all_step_some maxd h t f _ _ n
          (by rw [hnext, h2])]
        rw [foreach_drive maxd h t r0 hroot f stk3 L2 h3 (by
          have hl2 : T.inorder.length = L2.length + 1 := by rw [h1]; simp
          omega)]

end RBC

namespace RBC

/-- C3 (failing runs): two clauses of the claim fail.  Count: insert
one node into the empty tree, then remove an absent node (a defined
no-op on a non-empty tree); the iterator yields the one node still in
the tree, but inserts − removes = 0.  Strict order: insert two nodes
that tie under the documented comparator contract; the iterator yields
them both, but the yielded sequence is not strictly increasing, since
neither tied node strictly precedes the other. -/
theorem foreach_count_and_strict_order_fail :
    (((rb_insert MAX_TREE_DEPTH_64 init_heap
          { root := none, cmp := lt_cmp } 0).bind
        (fun st => rb_remove MAX_TREE_DEPTH_64 st.1 st.2 1)).map
      (fun st => rb_foreach_all MAX_TREE_DEPTH_64 st.1 st.2 2 .uninit) =
      some [0] ∧ (1 : Nat) ≠ 1 - 1) ∧
    ((insert_all MAX_TREE_DEPTH_64 init_heap
        { root := none, cmp := tie_cmp } [0, 1]).map
      (fun st => rb_foreach_all MAX_TREE_DEPTH_64 st.1 st.2 3 .uninit) =
      some [0, 1] ∧
      ¬ ([0, 1] : List Ptr).Pairwise (fun a b => tie_cmp a b = true)) :=
  ⟨⟨rfl, by decide⟩, ⟨rfl, by decide⟩⟩

/-- C3 (amended): driving `__rb_foreach_next` to exhaustion on a
represented, duplicate-free, in-order-sorted tree yields exactly the
nodes currently in the tree, each exactly once, in non-decreasing
comparator order, with yield count equal to the number of nodes
currently in the tree; the order is strictly increasing whenever the
comparator has no ties among the tree's nodes. -/
theorem rb_foreach_exhaustion_yields_tree (maxd : Nat) (h : Heap)
    (t : Tree) (T : ST) (fuel : Nat)
    (hrep : repS h t.root T) (hnod : T.inorder.Nodup)
    (hasc : Asc t.cmp T.inorder)
    (hht : T.ht + 2 ≤ maxd) (hfuel : T.inorder.length < fuel) :
    rb_foreach_all maxd h t fuel .uninit = T.inorder ∧
    (rb_foreach_all maxd h t fuel .uninit).Nodup ∧
    (rb_foreach_all maxd h t fuel .uninit).Pairwise
      (fun a b => t.cmp b a = false) ∧
    ((∀ a ∈ T.inorder, ∀ b ∈ T.inorder, a ≠ b →
        t.cmp a b = true ∨ t.cmp b a = true) →
      (rb_foreach_all maxd h t fuel .uninit).Pairwise
        (fun a b => t.cmp a b = true)) ∧
    (rb_foreach_all maxd h t fuel .uninit).length = T.inorder.length := by
  have he := rb_foreach_all_inorder maxd h t T fuel hrep hht hfuel
  have hasc2 : T.inorder.Pairwise (fun a b => t.cmp b a = false) := hasc
  refine ⟨he, by rw [he]; exact hnod, by rw [he]; exact hasc2, ?_,
    by rw [he]⟩
  intro htie
  rw [he]
  refine List.Pairwise.imp_of_mem ?_ (hasc2.and hnod)
  intro a b ha hb hab
  rcases htie a ha b hb hab.2 with hc | hc
  · exact hc
  · exact absurd hc (by simp [hab.1])

/-- Witness for the exhaustive-iteration theorem on the two-node tree
0 → (right) 1 under the id comparator. -/
theorem rb_foreach_exhaustion_yields_tree_witness :
    rb_foreach_all MAX_TREE_DEPTH_64
      (fun p => if p = 0 then
        { left := none, right := some 1, black := true } else
        { left := none, right := none, black := false })
      { root := some 0, cmp := lt_cmp } 3 .uninit =
      (ST.node 0 ST.nil (ST.node 1 ST.nil ST.nil)).inorder ∧
    (rb_foreach_all MAX_TREE_DEPTH_64
      (fun p => if p = 0 then
        { left := none, right := some 1, black := true } else
        { left := none, right := none, black := false })
      { root := some 0, cmp := lt_cmp } 3 .uninit).Nodup ∧
    (rb_foreach_all MAX_TREE_DEPTH_64
      (fun p => if p = 0 then
        { left := none, right := some 1, black := true } else
        { left := none, right := none, black := false })
      { root := some 0, cmp := lt_cmp } 3 .uninit).Pairwise
      (fun a b => ({ root := some 0, cmp := lt_cmp } : Tree).cmp b a =
        false) ∧
    ((∀ a ∈ (ST.node 0 ST.nil (ST.node 1 ST.nil ST.nil)).inorder,
        ∀ b ∈ (ST.node 0 ST.nil (ST.node 1 ST.nil ST.nil)).inorder,
        a ≠ b →
        ({ root := some 0, cmp := lt_cmp } : Tree).cmp a b = true ∨
        ({ root := some 0, cmp := lt_cmp } : Tree).cmp b a = true) →
      (rb_foreach_all MAX_TREE_DEPTH_64
        (fun p => if p = 0 then
          { left := none, right := some 1, black := true } else
          { left := none, right := none, black := false })
        { root := some 0, cmp := lt_cmp } 3 .uninit).Pairwise
        (fun a b => ({ root := some 0, cmp := lt_cmp } : Tree).cmp a b =
          true)) ∧
    (rb_foreach_all MAX_TREE_DEPTH_64
      (fun p => if p = 0 then
        { left := none, right := some 1, black := true } else
        { left := none, right := none, black := false })
      { root := some 0, cmp := lt_cmp } 3 .uninit).length =
      (ST.node 0 ST.nil (ST.node 1 ST.nil ST.nil)).inorder.length :=
  rb_foreach_exhaustion_yields_tree MAX_TREE_DEPTH_64
    (fun p => if p = 0 then
      { left := none, right := some 1, black := true } else
      { left := none, right := none, black := false })
    { root := some 0, cmp := lt_cmp }
    (ST.node 0 ST.nil (ST.node 1 ST.nil ST.nil)) 3
    (by decide) (by decide) (by unfold Asc; decide)
    (by decide) (by decide)

end RBC

namespace RBC

/-- Terminal rule: the search loop at NULL reports absence. -/
theorem contains_go_none (h : Heap) (cmp : Ptr → Ptr → Bool) (node : Ptr)
    (fuel : Nat) :
    contains_go h cmp (some node) fuel none = some false := by
  simp [contains_go]

/-- Step rule: at a node other than the probe, the loop follows the
comparator-chosen child. -/
theorem contains_go_step (h : Heap) (cmp : Ptr → Ptr → Bool)
    (node np : Ptr) (f : Nat) (hne : np ≠ node) :
    contains_go h cmp (some node) (f + 1) (some np) =
      contains_go h cmp (some node) f
        (get_child h np (if cmp node np then Side.L else Side.R)) := by
  rw [contains_go]
  simp [hne]

/-- The search loop of `rb_contains` on a represented sorted subtree
decides membership, provided the comparator has no ties among the
nodes of the ambient universe `U`. -/
theorem contains_go_spec (h : Heap) (cmp : Ptr → Ptr → Bool) (node : Ptr)
    (U : List Ptr)
    (htie : ∀ a ∈ U, ∀ b ∈ U, a ≠ b → cmp a b = true ∨ cmp b a = true) :
    ∀ (S : ST) (fuel : Nat),
      repS h (rootPtr S) S → Asc cmp S.inorder →
      (∀ a ∈ S.inorder, a ∈ U) → S.ht ≤ fuel →
      contains_go h cmp (some node) fuel (rootPtr S) =
        some (decide (node ∈ S.inorder)) := by
  intro S
  induction S with
  | nil =>
    intro fuel _ _ _ _
    simp [contains_go, ST.inorder, rootPtr]
  | node x A B ihA ihB =>
    intro fuel hrep hasc hsub hht
    have hparts := Asc.node_parts hasc
    by_cases hx : x = node
    · subst hx
      show contains_go h cmp (some x) fuel (some x) = _
      cases fuel <;> simp [contains_go, ST.inorder]
    · cases fuel with
      | zero =>
        exfalso
        simp only [ST.ht] at hht
        omega
      | succ f =>
        have hred := contains_go_step h cmp node x f hx
        have hrepA : repS h (rootPtr A) A := by
          rw [← repS_root hrep.2.1]
          exact hrep.2.1
        have hrepB : repS h (rootPtr B) B := by
          rw [← repS_root hrep.2.2]
          exact hrep.2.2
        cases hc : cmp node x with
        | true =>
          have hif : (if cmp node x then Side.L else Side.R) = Side.L := by
            simp [hc]
          have hgl : get_child h x Side.L = rootPtr A :=
            repS_root hrep.2.1
          rw [show rootPtr (ST.node x A B) = some x from rfl, hred, hif,
            hgl, ihA f hrepA hparts.2.2.1 (fun a ha => hsub a (by
              simp only [ST.inorder, List.mem_append, List.mem_cons]
              exact Or.inl ha)) (by simp only [ST.ht] at hht; omega)]
          refine congrArg some (decide_eq_decide.mpr ?_)
          simp only [ST.inorder, List.mem_append, List.mem_cons]
          constructor
          · intro hm
            exact Or.inl hm
          · intro hm
            rcases hm with hm | hm | hm
            · exact hm
            · exact absurd hm.symm hx
            · exact absurd (hparts.2.1 node hm) (by simp [hc])
        | false =>
          have hif : (if cmp node x then Side.L else Side.R) = Side.R := by
            simp [hc]
          have hgr : get_child h x Side.R = rootPtr B :=
            repS_root hrep.2.2
          rw [show rootPtr (ST.node x A B) = some x from rfl, hred, hif,
            hgr, ihB f hrepB hparts.2.2.2 (fun a ha => hsub a (by
              simp only [ST.inorder, List.mem_append, List.mem_cons]
              exact Or.inr (Or.inr ha))) (by simp only [ST.ht] at hht; omega)]
          refine congrArg some (decide_eq_decide.mpr ?_)
          simp only [ST.inorder, List.mem_append, List.mem_cons]
          constructor
          · intro hm
            exact Or.inr (Or.inr hm)
          · intro hm
            rcases hm with hm | hm | hm
            · exfalso
              have hx'U : x ∈ U := hsub x (by
                simp only [ST.inorder, List.mem_append, List.mem_cons]
                exact Or.inr (Or.inl trivial))
              have hnU : node ∈ U := hsub node (by
                simp only [ST.inorder, List.mem_append, List.mem_cons]
                exact Or.inl hm)
              rcases htie x hx'U node hnU hx with hc2 | hc2
              · exact absurd (hparts.1 node hm) (by simp [hc2])
              · exact absurd hc (by simp [hc2])
            · exact absurd hm.symm hx
            · exact hm

end RBC

namespace RBC

/-- C4 (failing run): under the documented tie-friendly comparator,
node 0 is inserted first and never removed — the iterator still yields
it — yet `rb_contains` answers false: the fixup rotation of the third
insert moved the equal-key node 0 to the left of node 1, where the
equal-goes-right search never looks. -/
theorem contains_misses_inserted_tie_node :
    (insert_all MAX_TREE_DEPTH_64 init_heap { root := none, cmp := tie_cmp }
        [0, 1, 2]).map
      (fun st => (rb_contains MAX_TREE_DEPTH_64 st.1 st.2 (some 0),
        rb_foreach_all MAX_TREE_DEPTH_64 st.1 st.2 4 .uninit)) =
      some (some false, [0, 1, 2]) :=
  rfl

/-- C4 (amended): on a represented, in-order-sorted tree whose
comparator has no ties among the tree's nodes, `rb_contains` answers
exactly membership in the tree (equivalently: the node was inserted
and not since removed, given that inserts and removes keep that set). -/
theorem rb_contains_iff_present (maxd : Nat) (h : Heap) (t : Tree)
    (T : ST) (node : Ptr)
    (hrep : repS h t.root T) (hasc : Asc t.cmp T.inorder)
    (htie : ∀ a ∈ T.inorder, ∀ b ∈ T.inorder, a ≠ b →
      t.cmp a b = true ∨ t.cmp b a = true)
    (hht : T.ht ≤ maxd) :
    rb_contains maxd h t (some node) = some (decide (node ∈ T.inorder)) ∧
    (rb_contains maxd h t (some node) = some true ↔
      node ∈ T.inorder) := by
  have hrep2 : repS h (rootPtr T) T := by
    rw [← repS_root hrep]
    exact hrep
  have he : rb_contains maxd h t (some node) =
      some (decide (node ∈ T.inorder)) := by
    unfold rb_contains
    rw [repS_root hrep]
    exact contains_go_spec h t.cmp node T.inorder htie T maxd hrep2 hasc
      (fun a ha => ha) hht
  refine ⟨he, ?_⟩
  rw [he]
  simp

/-- Witness for the contains theorem on the two-node tree 0 → (right) 1
under the id comparator, probing the present node 1. -/
theorem rb_contains_iff_present_witness :
    rb_contains MAX_TREE_DEPTH_64
      (fun p => if p = 0 then
        { left := none, right := some 1, black := true } else
        { left := none, right := none, black := false })
      { root := some 0, cmp := lt_cmp } (some 1) =
      some (decide ((1 : Ptr) ∈
        (ST.node 0 ST.nil (ST.node 1 ST.nil ST.nil)).inorder)) ∧
    (rb_contains MAX_TREE_DEPTH_64
      (fun p => if p = 0 then
        { left := none, right := some 1, black := true } else
        { left := none, right := none, black := false })
      { root := some 0, cmp := lt_cmp } (some 1) = some true ↔
      (1 : Ptr) ∈ (ST.node 0 ST.nil (ST.node 1 ST.nil ST.nil)).inorder) :=
  rb_contains_iff_present MAX_TREE_DEPTH_64
    (fun p => if p = 0 then
      { left := none, right := some 1, black := true } else
      { left := none, right := none, black := false })
    { root := some 0, cmp := lt_cmp }
    (ST.node 0 ST.nil (ST.node 1 ST.nil ST.nil)) 1
    (by decide) (by unfold Asc; decide) (by decide) (by decide)

end RBC

namespace RBC

/-- C6 (failing run): with the rightmost cache compiled in, inserting
node 1 that ties with the current maximum node 0 leaves the cache on
node 0, while the in-order sequence ends in node 1 and the uncached
`__rb_get_minmax(RB_RIGHT)` recomputation returns node 1: the cached
and uncached maxima diverge after two inserts.  (The leftmost cache
agrees here because ties descend right, away from the minimum.) -/
theorem cached_max_diverges_from_uncached :
    ((rb_cached_insert MAX_TREE_DEPTH_64 init_heap
        { rb_root := { root := none, cmp := tie_cmp },
          rb_leftmost := none, rb_rightmost := none } 0).bind
      (fun st => rb_cached_insert MAX_TREE_DEPTH_64 st.1 st.2 1)).map
      (fun st => (rb_cached_get_max st.2,
        rb_get_minmax MAX_TREE_DEPTH_64 st.1 st.2.rb_root .R,
        rb_cached_get_min st.2,
        rb_get_minmax MAX_TREE_DEPTH_64 st.1 st.2.rb_root .L,
        rb_foreach_all MAX_TREE_DEPTH_64 st.1 st.2.rb_root 3 .uninit)) =
      some (some 0, some 1, some 0, some 0, [0, 1]) :=
  rfl

end RBC
